import Mathlib

/-!
# go-rotate: a size-bounded rotating file writer

A shallow embedding of `rotate.go` (package `rotate`) together with the parts of
the Go standard library it calls (`os`, `path/filepath`, `strings`, `time`), and
theorems about the writer's write / rotate state machine and its default archive
namer.

Conventions of the embedding

* A Go `string` is a `List Char`.  Every character the program inspects or
  produces (`.`, `/`, `_`, digits, `T`, `Z`, `+`, `-`) is ASCII, so comparing
  characters by code point is the byte-wise comparison of Go.  Paths are Unix
  paths: the separator is `/`.
* File contents and written data are lists of bytes.
* Go's `int` is 64 bits wide on the platforms concerned.  The counter `cnt` and
  the threshold are unbounded `Int`s and `cnt + len(b)` is the exact sum, where
  Go's sum wraps around at `2^63`.  The two agree as long as the sum is below
  `2^63` (a counter beyond that needs a file of `2^63` bytes); the theorems on the
  crossing of the threshold, C1 and C4, state this bound as a hypothesis.
* The operating system is an explicit `World`: the resolution of paths to
  directory entries, the file each entry points to, the content of each file, a
  script of outcomes for the coming system calls (so that every call can fail, and
  a write can fail part way), a clock, and a log of the calls made so far.  The
  writer is the only one to touch the files.  Directories and symbolic links are
  not modelled.
* A `time.Time` is given by the fields `Format` prints, for a zone at a fixed
  offset; the instant it denotes is computed from them as `time.Date` does.
* The mutex of `Rotate` is not modelled: `Write` is `write` run in isolation.
-/

namespace GoRotate

/-! ## Strings -/

/-- Byte of a file or of a written slice. -/
abbrev Byte := UInt8

/-- Go `string`. -/
abbrev GoString := List Char

/-- Go's `<` on strings: lexical order. -/
def strLess : GoString → GoString → Bool
  | [], [] => false
  | [], _ :: _ => true
  | _ :: _, [] => false
  | a :: as, b :: bs => if a < b then true else if b < a then false else strLess as bs

/-- Unix `os.IsPathSeparator`. -/
def isPathSeparator (c : Char) : Bool := c == '/'

/-- Loop of `filepath.Ext` run on the reversed path: `acc` holds the bytes
already passed (in path order), the head of the list is `path[i]`. -/
def extLoop : List Char → List Char → GoString
  | [], _ => []
  | c :: rest, acc =>
    if isPathSeparator c then []
    else if c == '.' then c :: acc
    else extLoop rest (c :: acc)

/-- Go `filepath.Ext`: scan from the last byte towards the first, stop at a
path separator, return `path[i:]` at the first dot met. -/
def filepathExt (path : GoString) : GoString := extLoop path.reverse []

/-- Go `strings.HasSuffix`. -/
def hasSuffix (s suffix : GoString) : Bool :=
  decide (suffix.length ≤ s.length) && (s.drop (s.length - suffix.length) == suffix)

/-- Go `strings.TrimSuffix`. -/
def trimSuffix (s suffix : GoString) : GoString :=
  if hasSuffix s suffix then s.take (s.length - suffix.length) else s

/-! ## Time -/

/-- Go `time.Time` as `Format` sees it: the presentation fields reported by
`Date`, `Clock`, `Nanosecond` and `Zone` (offset in seconds east of UTC). -/
structure Time where
  year : Int
  month : Nat
  day : Nat
  hour : Nat
  minute : Nat
  second : Nat
  nsec : Nat
  offset : Int

/-- Go `time.isLeap`. -/
def isLeap (year : Int) : Bool := year % 4 == 0 && (year % 100 != 0 || year % 400 == 0)

/-- Go `time.daysBefore`: days in a non-leap year before the end of month `m`
(`daysBefore 0 = 0`). -/
def daysBefore : Nat → Nat
  | 0 => 0
  | 1 => 31
  | 2 => 59
  | 3 => 90
  | 4 => 120
  | 5 => 151
  | 6 => 181
  | 7 => 212
  | 8 => 243
  | 9 => 273
  | 10 => 304
  | 11 => 334
  | _ => 365

/-- Go `time.daysIn`. -/
def daysIn (m : Nat) (year : Int) : Nat :=
  if m = 2 ∧ isLeap year = true then 29 else daysBefore m - daysBefore (m - 1)

/-- Fields that `Date`, `Clock` and `Nanosecond` can report. -/
def Time.Valid (t : Time) : Prop :=
  1 ≤ t.month ∧ t.month ≤ 12 ∧ 1 ≤ t.day ∧ t.day ≤ daysIn t.month t.year ∧
  t.hour < 24 ∧ t.minute < 60 ∧ t.second < 60 ∧ t.nsec < 1000000000

instance (t : Time) : Decidable t.Valid := by
  unfold Time.Valid
  infer_instance

/-- Go `Time.YearDay`: day of the year, 1 for January 1st. -/
def Time.yday (t : Time) : Nat :=
  daysBefore (t.month - 1) + (if isLeap t.year = true ∧ 3 ≤ t.month then 1 else 0) + t.day

/-- Days from January 1st of year 0 to January 1st of `year` in the proleptic
Gregorian calendar (the calendar of Go's `time.Date`). -/
def daysBeforeYear (year : Int) : Int :=
  365 * year + (year + 3) / 4 - (year + 99) / 100 + (year + 399) / 400

/-- Go `Time.Unix`: seconds since 1970-01-01T00:00:00Z of the instant whose
presentation in the zone is `t`, as computed by `time.Date`. -/
def Time.unix (t : Time) : Int :=
  (daysBeforeYear t.year + (t.yday : Int) - 1) * 86400 + t.hour * 3600 + t.minute * 60 + t.second
    - t.offset - 62167219200

/-- Go `Time.Before`. -/
def Time.Before (t u : Time) : Bool :=
  decide (t.unix < u.unix) || (decide (t.unix = u.unix) && decide (t.nsec < u.nsec))

/-! ## `time.Format` -/

/-- Decimal digit as a byte: `'0' + d`. -/
def digit (d : Nat) : Char := Char.ofNat ('0'.toNat + d % 10)

/-- Decimal digits of `u`, most significant first; `fuel` bounds their number. -/
def utod : Nat → Nat → List Char
  | 0, _ => []
  | fuel + 1, u => if u < 10 then [digit u] else utod fuel (u / 10) ++ [digit u]

/-- Go `time.appendInt`: a minus sign for a negative `x`, then the decimal
digits of its magnitude, zero-padded to `width`. -/
def appendInt (b : List Char) (x : Int) (width : Nat) : List Char :=
  let b1 := if x < 0 then b ++ ['-'] else b
  let ds := utod (x.natAbs + 1) x.natAbs
  b1 ++ List.replicate (width - ds.length) '0' ++ ds

/-- Standard chunks of a layout that the bytes of `fmtLayout` can start. -/
inductive Std
  | longYear
  | year
  | numMonth
  | zeroMonth
  | day
  | underDay
  | zeroDay
  | underYearDay
  | zeroYearDay
  | hour
  | zeroHour12
  | minute
  | zeroMinute
  | second
  | zeroSecond
  | iso8601TZ
  | iso8601SecondsTZ
  | iso8601ShortTZ
  | iso8601ColonTZ
  | iso8601ColonSecondsTZ
  | fracSecond0 (n : Nat) (sep : Char)
  | fracSecond9 (n : Nat) (sep : Char)
  deriving DecidableEq

/-- Whether `layout` starts with `p`. -/
def startsWith (p layout : List Char) : Bool := layout.take p.length == p

/-- Body of the `switch` of Go `time.nextStdChunk` at one position `i`, where
`layout` is `layout[i:]`: the literal bytes to emit before the chunk (only `_`
of `_2006`), the chunk and the rest of the layout.  The cases are those of the
bytes `0 1 2 _ 4 5 . , Z`; the remaining cases of the Go switch (`J`, `M`, `3`,
`P`, `p`, `-`) start at bytes that do not occur in `fmtLayout`. -/
def chunkAt (layout : List Char) : Option (List Char × Std × List Char) :=
  match layout with
  | [] => none
  | c :: rest =>
    if c == '0' then
      match rest with
      | '1' :: s => some ([], Std.zeroMonth, s)
      | '2' :: s => some ([], Std.zeroDay, s)
      | '3' :: s => some ([], Std.zeroHour12, s)
      | '4' :: s => some ([], Std.zeroMinute, s)
      | '5' :: s => some ([], Std.zeroSecond, s)
      | '6' :: s => some ([], Std.year, s)
      | '0' :: '2' :: s => some ([], Std.zeroYearDay, s)
      | _ => none
    else if c == '1' then
      match rest with
      | '5' :: s => some ([], Std.hour, s)
      | _ => some ([], Std.numMonth, rest)
    else if c == '2' then
      if startsWith ['0', '0', '6'] rest then some ([], Std.longYear, rest.drop 3)
      else some ([], Std.day, rest)
    else if c == '_' then
      match rest with
      | '2' :: s =>
        if startsWith ['0', '0', '6'] s then some (['_'], Std.longYear, s.drop 3)
        else some ([], Std.underDay, s)
      | '_' :: '2' :: s => some ([], Std.underYearDay, s)
      | _ => none
    else if c == '4' then some ([], Std.minute, rest)
    else if c == '5' then some ([], Std.second, rest)
    else if c == 'Z' then
      if startsWith ['0', '7', '0', '0', '0', '0'] rest then
        some ([], Std.iso8601SecondsTZ, rest.drop 6)
      else if startsWith ['0', '7', ':', '0', '0', ':', '0', '0'] rest then
        some ([], Std.iso8601ColonSecondsTZ, rest.drop 8)
      else if startsWith ['0', '7', '0', '0'] rest then some ([], Std.iso8601TZ, rest.drop 4)
      else if startsWith ['0', '7', ':', '0', '0'] rest then
        some ([], Std.iso8601ColonTZ, rest.drop 5)
      else if startsWith ['0', '7'] rest then some ([], Std.iso8601ShortTZ, rest.drop 2)
      else none
    else if c == '.' || c == ',' then
      match rest with
      | [] => none
      | ch :: _ =>
        if ch == '0' || ch == '9' then
          let run := rest.takeWhile (· == ch)
          let after := rest.dropWhile (· == ch)
          match after with
          | d :: _ =>
            if d.isDigit then none
            else some ([], if ch == '9' then Std.fracSecond9 run.length c
                           else Std.fracSecond0 run.length c, after)
          | [] => some ([], if ch == '9' then Std.fracSecond9 run.length c
                            else Std.fracSecond0 run.length c, after)
        else none
    else none

/-- Go `time.nextStdChunk`: the literal text before the first standard chunk,
the chunk (`none` for Go's `std == 0`), and the layout after it. -/
def nextStdChunk : List Char → List Char × Option Std × List Char
  | [] => ([], none, [])
  | c :: rest =>
    match chunkAt (c :: rest) with
    | some (lit, std, suffix) => (lit, some std, suffix)
    | none =>
      match nextStdChunk rest with
      | (lit, std, suffix) => (c :: lit, std, suffix)

/-- Go `time.appendNano` for the fractional-second chunks. -/
def appendNano (b : List Char) (nanosec : Nat) (std : Std) : List Char :=
  match std with
  | Std.fracSecond9 n sep =>
    if n = 0 ∨ nanosec = 0 then b
    else
      let b1 := (appendInt (b ++ [sep]) nanosec 9)
      let b2 := b1.take (b1.length - 9 + n)
      let b3 := b2.rdropWhile (· == '0')
      if b3.getLast? = some sep then b3.dropLast else b3
  | Std.fracSecond0 n sep =>
    let b1 := (appendInt (b ++ [sep]) nanosec 9)
    b1.take (b1.length - 9 + n)
  | _ => b

/-- Zone chunks of Go `Time.appendFormat` (the `Z07...` family); Go's `/` and `%`
on `int` truncate towards zero. -/
def appendZone (b : List Char) (offset : Int) (std : Std) : List Char :=
  if offset = 0 then b ++ ['Z']
  else
    let zone0 := offset.tdiv 60
    let b1 := if zone0 < 0 then b ++ ['-'] else b ++ ['+']
    let zone := if zone0 < 0 then -zone0 else zone0
    let absoffset := if zone0 < 0 then -offset else offset
    let b2 := appendInt b1 (zone.tdiv 60) 2
    let colon := decide (std = Std.iso8601ColonTZ) || decide (std = Std.iso8601ColonSecondsTZ)
    let b3 := if colon then b2 ++ [':'] else b2
    let b4 := if std = Std.iso8601ShortTZ then b3 else appendInt b3 (zone.tmod 60) 2
    if std = Std.iso8601SecondsTZ ∨ std = Std.iso8601ColonSecondsTZ then
      appendInt (if std = Std.iso8601ColonSecondsTZ then b4 ++ [':'] else b4)
        (absoffset.tmod 60) 2
    else b4

/-- One iteration's `switch std` of Go `Time.appendFormat`. -/
def appendStd (b : List Char) (t : Time) (std : Std) : List Char :=
  match std with
  | Std.longYear => appendInt b t.year 4
  | Std.year => appendInt b ((if t.year < 0 then -t.year else t.year) % 100) 2
  | Std.numMonth => appendInt b t.month 0
  | Std.zeroMonth => appendInt b t.month 2
  | Std.day => appendInt b t.day 0
  | Std.underDay => appendInt (if t.day < 10 then b ++ [' '] else b) t.day 0
  | Std.zeroDay => appendInt b t.day 2
  | Std.underYearDay =>
    appendInt (if t.yday < 100 then (if t.yday < 10 then b ++ [' ', ' '] else b ++ [' ']) else b)
      t.yday 0
  | Std.zeroYearDay => appendInt b t.yday 3
  | Std.hour => appendInt b t.hour 2
  | Std.zeroHour12 => appendInt b (if t.hour % 12 = 0 then 12 else t.hour % 12 : Nat) 2
  | Std.minute => appendInt b t.minute 0
  | Std.zeroMinute => appendInt b t.minute 2
  | Std.second => appendInt b t.second 0
  | Std.zeroSecond => appendInt b t.second 2
  | Std.iso8601TZ => appendZone b t.offset std
  | Std.iso8601SecondsTZ => appendZone b t.offset std
  | Std.iso8601ShortTZ => appendZone b t.offset std
  | Std.iso8601ColonTZ => appendZone b t.offset std
  | Std.iso8601ColonSecondsTZ => appendZone b t.offset std
  | Std.fracSecond0 _ _ => appendNano b t.nsec std
  | Std.fracSecond9 _ _ => appendNano b t.nsec std

/-- Loop of Go `Time.appendFormat`; `fuel` bounds the number of chunks. -/
def appendFormat : Nat → List Char → Time → List Char → List Char
  | 0, b, _, _ => b
  | fuel + 1, b, t, layout =>
    if layout = [] then b
    else
      match nextStdChunk layout with
      | (lit, none, _) => b ++ lit
      | (lit, some std, suffix) => appendFormat fuel (appendStd (b ++ lit) t std) t suffix

/-- Go `Time.Format`.  Every chunk consumes a byte of the layout, so its length
is enough fuel. -/
def Time.Format (t : Time) (layout : GoString) : GoString :=
  appendFormat layout.length [] t layout

/-! ## The default namer -/

/-- Constant `fmtLayout` of `rotate.go`. -/
def fmtLayout : GoString := "2006_01_02T15_04_05.999999999Z07_00".toList

/-- Function type `Format` of `rotate.go`. -/
abbrev Format := GoString → Time → GoString

/-- Function `FormatFunc` of `rotate.go`. -/
def FormatFunc (name : GoString) (t : Time) : GoString :=
  let ext := filepathExt name
  trimSuffix name ext ++ "_".toList ++ t.Format fmtLayout ++ ext

/-! ## The operating system -/

/-- Go `error` values the writer can meet. -/
inductive Error
  | errInvalid
  | errClosed
  | errNotExist
  | sys (code : Nat)
  deriving DecidableEq

/-- Scripted outcome of one system call: success, or failure with an error code;
a failing `write` has put the first `wrote` bytes of its argument before failing. -/
inductive Fault
  | ok
  | fail (code : Nat) (wrote : Nat)
  deriving DecidableEq

/-- Go `*os.File` held by the writer: the nil pointer, a closed file, or an open
file description, that is the file opened (by its number on the disk, which no
rename changes) and the offset. -/
inductive File
  | nil
  | closed
  | live (ino : Nat) (off : Nat)
  deriving DecidableEq

/-- Calls into the `os` package. -/
inductive Call
  | mkdirAll (name : GoString)
  | openFile (name : GoString)
  | seek
  | sync
  | close
  | rename (oldpath newpath : GoString)
  | write (b : List Byte)
  deriving DecidableEq

/-- One entry of the call log: the call, its error, and the count it returned
(bytes written by `write`, offset by `seek`). -/
structure Event where
  call : Call
  err : Option Error
  n : Nat
  deriving DecidableEq

/-- State of the environment.  A path is resolved to the directory entry it
denotes (`resolve`: the spellings of one path, such as `./app.log` and `app.log`,
resolve to one entry); an entry that exists points to a file by its number
(`entries`: hard links are entries with one number); `data` is the content of
each file, and `fresh` is the number that the next file created gets, above the
number of every file there is (`wf`), so that a created file is a new one. -/
structure World where
  resolve : GoString → GoString
  entries : GoString → Option Nat
  data : Nat → List Byte
  fresh : Nat
  faults : List Fault
  clock : Nat → Time
  tick : Nat
  log : List Event
  wf : ∀ e i, entries e = some i → i < fresh

/-- Content of the file that path `p` names, if there is one. -/
def World.read (w : World) (p : GoString) : Option (List Byte) :=
  (w.entries (w.resolve p)).map w.data

/-- Take the outcome of the next system call from the script (success once the
script is used up). -/
def World.next (w : World) : Fault × World :=
  match w.faults with
  | [] => (Fault.ok, w)
  | f :: fs => (f, { w with faults := fs })

/-- World after a call has used up its scripted outcome. -/
def World.pop (w : World) : World := { w with faults := w.faults.tail }

/-- Append an entry to the call log. -/
def World.emit (w : World) (c : Call) (err : Option Error) (n : Nat) : World :=
  { w with log := w.log ++ [⟨c, err, n⟩] }

/-- The disk of `w1` is that of `w`: same entries, same files, same contents. -/
def World.SameDisk (w1 w : World) : Prop :=
  w1.resolve = w.resolve ∧ w1.entries = w.entries ∧ w1.data = w.data ∧ w1.fresh = w.fresh

/-- Entries after the entry `e` has been created for a new file, number `n`. -/
def createEntries (entries : GoString → Option Nat) (n : Nat) (e : GoString) :
    GoString → Option Nat :=
  fun q => if q = e then some n else entries q

/-- Entries after the file of entry `a` has been moved to entry `b`: `b` points to
the file, replacing what it pointed to, and `a` is gone. -/
def moveEntries (entries : GoString → Option Nat) (a b : GoString) : GoString → Option Nat :=
  fun q => if q = b then entries a else if q = a then none else entries q

/-- Content of the files after file `i` has been given the content `c`. -/
def setContent (data : Nat → List Byte) (i : Nat) (c : List Byte) : Nat → List Byte :=
  fun j => if j = i then c else data j

/-- Create an empty file, with the number `fresh`, under the entry `e`. -/
def World.create (w : World) (e : GoString) : World :=
  { w with
    entries := createEntries w.entries w.fresh e
    data := setContent w.data w.fresh []
    fresh := w.fresh + 1
    wf := fun q i h =>
      if hq : q = e then
        Nat.lt_succ_of_le (Nat.le_of_eq (Option.some.inj ((if_pos hq).symm.trans h)).symm)
      else Nat.lt_succ_of_lt (w.wf q i ((if_neg hq).symm.trans h)) }

/-- Move the file of entry `a` to entry `b`. -/
def World.move (w : World) (a b : GoString) : World :=
  { w with
    entries := moveEntries w.entries a b
    wf := fun q i h =>
      if hb : q = b then w.wf a i ((if_pos hb).symm.trans h)
      else if ha : q = a then
        nomatch ((if_pos ha).symm.trans ((if_neg hb).symm.trans h))
      else w.wf q i ((if_neg ha).symm.trans ((if_neg hb).symm.trans h)) }

/-- Set the content of file `i`. -/
def World.setData (w : World) (i : Nat) (c : List Byte) : World :=
  { w with data := setContent w.data i c }

/-- World after the clock has been read once. -/
def World.advance (w : World) : World := { w with tick := w.tick + 1 }

/-- Go `time.Now`. -/
def timeNow (w : World) : World × Time := (w.advance, w.clock w.tick)

/-- Go `os.MkdirAll(filepath.Dir(name), os.ModePerm)`.  Directories are not part
of the model: the call only succeeds or fails. -/
def osMkdirAll (w : World) (name : GoString) : World × Option Error :=
  match w.next with
  | (Fault.ok, w1) => (w1.emit (Call.mkdirAll name) none 0, none)
  | (Fault.fail c _, w1) => (w1.emit (Call.mkdirAll name) (some (Error.sys c)) 0, some (Error.sys c))

/-- Go `os.OpenFile(name, os.O_CREATE|os.O_WRONLY, os.ModePerm)`: opens the file
the path names, keeping its content (no `O_TRUNC`), or creates an empty file when
the path names none; the offset is 0 (no `O_APPEND`). -/
def osOpenFile (w : World) (name : GoString) : World × File × Option Error :=
  match w.next with
  | (Fault.fail c _, w1) =>
    (w1.emit (Call.openFile name) (some (Error.sys c)) 0, File.nil, some (Error.sys c))
  | (Fault.ok, w1) =>
    match w1.entries (w1.resolve name) with
    | some i => (w1.emit (Call.openFile name) none 0, File.live i 0, none)
    | none =>
      ((w1.create (w1.resolve name)).emit (Call.openFile name) none 0, File.live w1.fresh 0, none)

/-- Go `file.Seek(0, io.SeekEnd)`. -/
def fileSeekEnd (w : World) (f : File) : World × File × Nat × Option Error :=
  match f with
  | File.nil => (w.emit Call.seek (some Error.errInvalid) 0, f, 0, some Error.errInvalid)
  | File.closed => (w.emit Call.seek (some Error.errClosed) 0, f, 0, some Error.errClosed)
  | File.live i _ =>
    match w.next with
    | (Fault.fail c _, w1) => (w1.emit Call.seek (some (Error.sys c)) 0, f, 0, some (Error.sys c))
    | (Fault.ok, w1) =>
      (w1.emit Call.seek none (w1.data i).length, File.live i (w1.data i).length,
        (w1.data i).length, none)

/-- Go `file.Sync`. -/
def fileSync (w : World) (f : File) : World × Option Error :=
  match f with
  | File.nil => (w.emit Call.sync (some Error.errInvalid) 0, some Error.errInvalid)
  | File.closed => (w.emit Call.sync (some Error.errClosed) 0, some Error.errClosed)
  | File.live _ _ =>
    match w.next with
    | (Fault.fail c _, w1) => (w1.emit Call.sync (some (Error.sys c)) 0, some (Error.sys c))
    | (Fault.ok, w1) => (w1.emit Call.sync none 0, none)

/-- Go `file.Close`: an open file is closed whether or not the call reports an
error. -/
def fileClose (w : World) (f : File) : World × File × Option Error :=
  match f with
  | File.nil => (w.emit Call.close (some Error.errInvalid) 0, f, some Error.errInvalid)
  | File.closed => (w.emit Call.close (some Error.errClosed) 0, f, some Error.errClosed)
  | File.live _ _ =>
    match w.next with
    | (Fault.fail c _, w1) =>
      (w1.emit Call.close (some (Error.sys c)) 0, File.closed, some (Error.sys c))
    | (Fault.ok, w1) => (w1.emit Call.close none 0, File.closed, none)

/-- Go `os.Rename` (POSIX `rename`): fails when `oldpath` names no file; does
nothing when both paths name one file already (the same entry under two
spellings, or two hard links); otherwise makes the entry of `newpath` point to the
file, replacing what it pointed to, and removes the entry of `oldpath`. -/
def osRename (w : World) (oldpath newpath : GoString) : World × Option Error :=
  match w.next with
  | (Fault.fail c _, w1) =>
    (w1.emit (Call.rename oldpath newpath) (some (Error.sys c)) 0, some (Error.sys c))
  | (Fault.ok, w1) =>
    match w1.entries (w1.resolve oldpath) with
    | none => (w1.emit (Call.rename oldpath newpath) (some Error.errNotExist) 0,
        some Error.errNotExist)
    | some i =>
      let w2 : World :=
        if w1.entries (w1.resolve newpath) = some i then w1
        else w1.move (w1.resolve oldpath) (w1.resolve newpath)
      (w2.emit (Call.rename oldpath newpath) none 0, none)

/-- Content of a file after `b` is written at offset `off` (a gap past the end is
filled with zero bytes). -/
def writeAt (c : List Byte) (off : Nat) (b : List Byte) : List Byte :=
  if b = [] then c
  else c.take off ++ List.replicate (off - c.length) 0 ++ b ++ c.drop (off + b.length)

/-- Go `file.Write(b)`: writes at the file's offset and advances it. -/
def fileWrite (w : World) (f : File) (b : List Byte) : World × File × Nat × Option Error :=
  match f with
  | File.nil => (w.emit (Call.write b) (some Error.errInvalid) 0, f, 0, some Error.errInvalid)
  | File.closed => (w.emit (Call.write b) (some Error.errClosed) 0, f, 0, some Error.errClosed)
  | File.live i off =>
    match w.next with
    | (Fault.ok, w1) =>
      ((w1.setData i (writeAt (w1.data i) off b)).emit (Call.write b) none b.length,
        File.live i (off + b.length), b.length, none)
    | (Fault.fail c k, w1) =>
      ((w1.setData i (writeAt (w1.data i) off (b.take k))).emit (Call.write b)
          (some (Error.sys c)) (b.take k).length,
        File.live i (off + (b.take k).length), (b.take k).length, some (Error.sys c))

/-! ## The writer (`rotate.go`) -/

/-- Struct `Rotate` (without its mutex). -/
structure Rotate where
  file : File
  name : GoString
  fmtFunc : Format
  cnt : Int
  maxSize : Int

/-- Struct `Options`; `FmtFunc = none` is Go's nil function. -/
structure Options where
  Name : GoString
  FmtFunc : Option Format
  MaxSize : Int

/-- Function `New`. -/
def New (w : World) (opts : Options) : World × Except Error Rotate :=
  match osMkdirAll w opts.Name with
  | (w1, some err) => (w1, Except.error err)
  | (w1, none) =>
    match osOpenFile w1 opts.Name with
    | (w2, _, some err) => (w2, Except.error err)
    | (w2, file, none) =>
      match fileSeekEnd w2 file with
      | (w3, file1, _, some err) => ((fileClose w3 file1).1, Except.error err)
      | (w3, file1, e, none) =>
        (w3, Except.ok
          { file := file1
            fmtFunc := opts.FmtFunc.getD FormatFunc
            name := opts.Name
            cnt := e
            maxSize := opts.MaxSize })

/-- Method `rotate`. -/
def Rotate.rotate (w : World) (r : Rotate) : World × Rotate × Option Error :=
  match fileSync w r.file with
  | (w1, some err) => (w1, r, some err)
  | (w1, none) =>
    match fileClose w1 r.file with
    | (w2, file1, some err) => (w2, { r with file := file1 }, some err)
    | (w2, file1, none) =>
      match timeNow w2 with
      | (w3, now) =>
        let newName := r.fmtFunc r.name now
        match osRename w3 r.name newName with
        | (w4, some err) => (w4, { r with file := file1 }, some err)
        | (w4, none) =>
          match osOpenFile w4 r.name with
          | (w5, file2, err) => (w5, { r with file := file2, cnt := 0 }, err)

/-- Lines 84 to 91 of method `write`: the write proper and the counter update. -/
def Rotate.put (w : World) (r : Rotate) (b : List Byte) : World × Rotate × Nat × Option Error :=
  match fileWrite w r.file b with
  | (w1, file1, n, some err) => (w1, { r with file := file1 }, n, some err)
  | (w1, file1, n, none) => (w1, { r with file := file1, cnt := r.cnt + n }, n, none)

/-- Method `write`. -/
def Rotate.write (w : World) (r : Rotate) (b : List Byte) : World × Rotate × Nat × Option Error :=
  if r.cnt > 0 ∧ r.cnt + b.length > r.maxSize then
    match r.rotate w with
    | (w1, r1, some err) => (w1, r1, 0, some err)
    | (w1, r1, none) => r1.put w1 b
  else r.put w b

/-- Method `Write`: `write` under the writer's lock. -/
def Rotate.Write (w : World) (r : Rotate) (b : List Byte) : World × Rotate × Nat × Option Error :=
  r.write w b

/-- Run a sequence of `Write` calls; the results are listed in call order. -/
def writes (w : World) (r : Rotate) : List (List Byte) → World × Rotate × List (Nat × Option Error)
  | [] => (w, r, [])
  | b :: bs =>
    match r.Write w b with
    | (w1, r1, n, err) =>
      match writes w1 r1 bs with
      | (w2, r2, res) => (w2, r2, (n, err) :: res)

/-- ASCII text as bytes. -/
def bytes (s : String) : List Byte := s.toList.map (fun c => c.toNat.toUInt8)

/-! ## Observations on a run -/

/-- Every scripted outcome is a success: all file operations succeed. -/
def World.AllOk (w : World) : Prop := ∀ f ∈ w.faults, f = Fault.ok

/-- Number of times `rotate` ran: it is the only caller of `Sync`, and calls it
exactly once. -/
def rotations (log : List Event) : Nat := (log.filter (fun ev => ev.call = Call.sync)).length

/-- Calls of one rotation, in program order. -/
def rotateCalls (name archive : GoString) : List Call :=
  [Call.sync, Call.close, Call.rename name archive, Call.openFile name]

/-- Log of a run of `calls` whose first `k` calls succeed and whose next call
fails with `e`; nothing is called after the failure. -/
def failedAt (calls : List Call) (k : Nat) (e : Error) : List Event :=
  (calls.take k).map (fun c => ⟨c, none, 0⟩) ++ ((calls.drop k).take 1).map (fun c => ⟨c, some e, 0⟩)

/-- Effect of one logged call on the count of bytes in the file of the open
handle: a successful open starts at 0, the seek of `New` adopts the end offset,
every write adds the bytes it put, whether or not it then failed. -/
def account (acc : Nat) (ev : Event) : Nat :=
  match ev.call, ev.err with
  | Call.openFile _, none => 0
  | Call.seek, none => ev.n
  | Call.write _, _ => acc + ev.n
  | _, _ => acc

/-- Bytes the writer has put into the file of its current handle since that
handle was opened, plus the length adopted by `New`, read off the call log. -/
def handleBytes (log : List Event) : Nat := log.foldl account 0


/-! ## Auxiliary notions for the theorems on `Format` -/

/-- The `w` low decimal digits of `n`, most significant first. -/
def fixed : Nat → Nat → List Char
  | 0, _ => []
  | w + 1, n => fixed w (n / 10) ++ [digit n]

/-- Bytes that `Format` can produce for `fmtLayout`. -/
def stampChar (c : Char) : Prop := c.isDigit = true ∨ c ∈ ['_', 'T', '.', 'Z', '+', '-']

/-- Date and time of day of `t` in the shape `fmtLayout` gives them. -/
def dateStr (t : Time) : List Char :=
  fixed 4 t.year.toNat ++ ['_'] ++ fixed 2 t.month ++ ['_'] ++ fixed 2 t.day ++ ['T'] ++
    fixed 2 t.hour ++ ['_'] ++ fixed 2 t.minute ++ ['_'] ++ fixed 2 t.second

/-- Fraction of a second in the shape `.999999999` gives it: nothing for zero,
otherwise a dot and the nine digits without their trailing zeros. -/
def fracStr (n : Nat) : List Char :=
  if n = 0 then [] else '.' :: (fixed 9 n).rdropWhile (· == '0')

/-- Zone offset in the shape `Z07` gives it. -/
def zoneStr (offset : Int) : List Char := appendZone [] offset Std.iso8601ShortTZ

/-! ## Example inputs -/

/-- Path of the live file in the examples. -/
def exPath : GoString := "app.log".toList

/-- Path resolution of the examples: a leading `./` is dropped. -/
def exResolve (p : GoString) : GoString :=
  if startsWith "./".toList p then p.drop 2 else p

/-- A clock in UTC: its `i`-th reading is 2021-03-04T05:06:07 plus `i` nanoseconds. -/
def exClock (i : Nat) : Time := ⟨2021, 3, 4, 5, 6, 7, i, 0⟩

/-- An empty disk; the outcomes of the calls are given by `faults`. -/
def exWorld (faults : List Fault) : World :=
  ⟨exResolve, fun _ => none, fun _ => [], 0, faults, exClock, 0, [], fun _ _ h => nomatch h⟩

/-- Options of the example of the specification: threshold 10, default namer. -/
def exOpts : Options := ⟨exPath, none, 10⟩

/-- The writer that `New (exWorld []) exOpts` returns. -/
def exNew : Rotate := ⟨File.live 0 0, exPath, FormatFunc, 0, 10⟩

/-- A disk whose live file, file 0, holds `content`. -/
def exDisk (content : List Byte) (faults : List Fault) : World :=
  ⟨exResolve, fun e => if e = exPath then some 0 else none,
    fun i => if i = 0 then content else [], 1, faults, exClock, 0, [],
    fun e _ h =>
      if he : e = exPath then
        Nat.lt_succ_of_le (Nat.le_of_eq (Option.some.inj ((if_pos he).symm.trans h)).symm)
      else nomatch ((if_neg he).symm.trans h)⟩

/-- The writer after `hello` has been written. -/
def exWriter : Rotate := ⟨File.live 0 5, exPath, FormatFunc, 5, 10⟩

/-- A writer on an empty live file with a negative threshold. -/
def exTiny : Rotate := ⟨File.live 0 0, exPath, FormatFunc, 0, -1⟩

/-- A namer that returns the path it is given. -/
def exSameName : Format := fun name _ => name

/-- A namer that returns another spelling of the path it is given. -/
def exDotSlash : Format := fun name _ => "./".toList ++ name

/-- A writer at the threshold, on a live file of ten bytes, whose namer returns
another spelling of the live path. -/
def exAliased : Rotate := ⟨File.live 0 10, exPath, exDotSlash, 10, 10⟩

/-- Options with threshold 10 and the namer that returns the path. -/
def exSameOpts : Options := ⟨exPath, some exSameName, 10⟩

/-- The writer that `New` returns for `exSameOpts` on a live file of ten bytes. -/
def exResumed : Rotate := ⟨File.live 0 10, exPath, exSameName, 10, 10⟩

/-- Options with threshold 10 and the namer that returns another spelling of the
path; on a live file of ten bytes `New` returns `exAliased` for them. -/
def exDotOpts : Options := ⟨exPath, some exDotSlash, 10⟩

/-- Two instants of one second, half a second apart, in a zone at `offset`. -/
def exEarly (offset : Int) : Time := ⟨2021, 3, 4, 5, 6, 7, 0, offset⟩

/-- The later of the two instants. -/
def exLate (offset : Int) : Time := ⟨2021, 3, 4, 5, 6, 7, 500000000, offset⟩

/-! ## The environment under success -/

@[simp]
theorem pop_resolve (w : World) :
    w.pop.resolve = w.resolve := rfl

@[simp]
theorem pop_entries (w : World) :
    w.pop.entries = w.entries := rfl

@[simp]
theorem pop_data (w : World) :
    w.pop.data = w.data := rfl

@[simp]
theorem pop_fresh (w : World) :
    w.pop.fresh = w.fresh := rfl

@[simp]
theorem pop_clock (w : World) :
    w.pop.clock = w.clock := rfl

@[simp]
theorem pop_tick (w : World) :
    w.pop.tick = w.tick := rfl

@[simp]
theorem pop_log (w : World) :
    w.pop.log = w.log := rfl

@[simp]
theorem emit_resolve (w : World) (c : Call) (e : Option Error) (n : Nat) :
    (w.emit c e n).resolve = w.resolve := rfl

@[simp]
theorem emit_entries (w : World) (c : Call) (e : Option Error) (n : Nat) :
    (w.emit c e n).entries = w.entries := rfl

@[simp]
theorem emit_data (w : World) (c : Call) (e : Option Error) (n : Nat) :
    (w.emit c e n).data = w.data := rfl

@[simp]
theorem emit_fresh (w : World) (c : Call) (e : Option Error) (n : Nat) :
    (w.emit c e n).fresh = w.fresh := rfl

@[simp]
theorem emit_clock (w : World) (c : Call) (e : Option Error) (n : Nat) :
    (w.emit c e n).clock = w.clock := rfl

@[simp]
theorem emit_tick (w : World) (c : Call) (e : Option Error) (n : Nat) :
    (w.emit c e n).tick = w.tick := rfl

@[simp]
theorem advance_resolve (w : World) :
    w.advance.resolve = w.resolve := rfl

@[simp]
theorem advance_entries (w : World) :
    w.advance.entries = w.entries := rfl

@[simp]
theorem advance_data (w : World) :
    w.advance.data = w.data := rfl

@[simp]
theorem advance_fresh (w : World) :
    w.advance.fresh = w.fresh := rfl

@[simp]
theorem advance_clock (w : World) :
    w.advance.clock = w.clock := rfl

@[simp]
theorem advance_log (w : World) :
    w.advance.log = w.log := rfl

@[simp]
theorem create_resolve (w : World) (p : GoString) :
    (w.create p).resolve = w.resolve := rfl

@[simp]
theorem create_clock (w : World) (p : GoString) :
    (w.create p).clock = w.clock := rfl

@[simp]
theorem create_tick (w : World) (p : GoString) :
    (w.create p).tick = w.tick := rfl

@[simp]
theorem create_log (w : World) (p : GoString) :
    (w.create p).log = w.log := rfl

@[simp]
theorem move_resolve (w : World) (a b : GoString) :
    (w.move a b).resolve = w.resolve := rfl

@[simp]
theorem move_data (w : World) (a b : GoString) :
    (w.move a b).data = w.data := rfl

@[simp]
theorem move_fresh (w : World) (a b : GoString) :
    (w.move a b).fresh = w.fresh := rfl

@[simp]
theorem move_clock (w : World) (a b : GoString) :
    (w.move a b).clock = w.clock := rfl

@[simp]
theorem move_tick (w : World) (a b : GoString) :
    (w.move a b).tick = w.tick := rfl

@[simp]
theorem move_log (w : World) (a b : GoString) :
    (w.move a b).log = w.log := rfl

@[simp]
theorem setData_resolve (w : World) (i : Nat) (c : List Byte) :
    (w.setData i c).resolve = w.resolve := rfl

@[simp]
theorem setData_entries (w : World) (i : Nat) (c : List Byte) :
    (w.setData i c).entries = w.entries := rfl

@[simp]
theorem setData_fresh (w : World) (i : Nat) (c : List Byte) :
    (w.setData i c).fresh = w.fresh := rfl

@[simp]
theorem setData_clock (w : World) (i : Nat) (c : List Byte) :
    (w.setData i c).clock = w.clock := rfl

@[simp]
theorem setData_tick (w : World) (i : Nat) (c : List Byte) :
    (w.setData i c).tick = w.tick := rfl

@[simp]
theorem setData_log (w : World) (i : Nat) (c : List Byte) :
    (w.setData i c).log = w.log := rfl

@[simp]
theorem emit_log (w : World) (c : Call) (e : Option Error) (n : Nat) :
    (w.emit c e n).log = w.log ++ [⟨c, e, n⟩] := rfl

@[simp]
theorem advance_tick (w : World) : w.advance.tick = w.tick + 1 := rfl

@[simp]
theorem create_entries (w : World) (p q : GoString) :
    (w.create p).entries q = if q = p then some w.fresh else w.entries q := rfl

@[simp]
theorem create_data (w : World) (p : GoString) (j : Nat) :
    (w.create p).data j = if j = w.fresh then [] else w.data j := rfl

@[simp]
theorem create_fresh (w : World) (p : GoString) : (w.create p).fresh = w.fresh + 1 := rfl

@[simp]
theorem move_entries (w : World) (a b q : GoString) :
    (w.move a b).entries q =
      if q = b then w.entries a else if q = a then none else w.entries q := rfl

@[simp]
theorem setData_data (w : World) (i j : Nat) (c : List Byte) :
    (w.setData i c).data j = if j = i then c else w.data j := rfl

@[simp]
theorem allOk_emit (w : World) (c : Call) (e : Option Error) (n : Nat) :
    (w.emit c e n).AllOk ↔ w.AllOk := Iff.rfl

@[simp]
theorem emit_pop (w : World) (c : Call) (e : Option Error) (n : Nat) :
    (w.emit c e n).pop = (w.pop.emit c e n) := rfl

@[simp]
theorem allOk_advance (w : World) :
    w.advance.AllOk ↔ w.AllOk := Iff.rfl

@[simp]
theorem advance_pop (w : World) :
    w.advance.pop = w.pop.advance := rfl

@[simp]
theorem allOk_create (w : World) (p : GoString) :
    (w.create p).AllOk ↔ w.AllOk := Iff.rfl

@[simp]
theorem create_pop (w : World) (p : GoString) :
    (w.create p).pop = (w.pop.create p) := rfl

@[simp]
theorem allOk_move (w : World) (a b : GoString) :
    (w.move a b).AllOk ↔ w.AllOk := Iff.rfl

@[simp]
theorem move_pop (w : World) (a b : GoString) :
    (w.move a b).pop = (w.pop.move a b) := rfl

@[simp]
theorem allOk_setData (w : World) (i : Nat) (c : List Byte) :
    (w.setData i c).AllOk ↔ w.AllOk := Iff.rfl

@[simp]
theorem setData_pop (w : World) (i : Nat) (c : List Byte) :
    (w.setData i c).pop = (w.pop.setData i c) := rfl

theorem allOk_pop {w : World} (h : w.AllOk) : w.pop.AllOk := by
  intro f hf
  exact h f (List.mem_of_mem_tail hf)

theorem next_of_allOk {w : World} (h : w.AllOk) : w.next = (Fault.ok, w.pop) := by
  obtain ⟨resolve, entries, data, fresh, faults, clock, tick, log⟩ := w
  cases faults with
  | nil => rfl
  | cons f fs =>
    have hf : f = Fault.ok := h f (by simp)
    simp [World.next, World.pop, hf]

theorem writeAt_end (c b : List Byte) : writeAt c c.length b = c ++ b := by
  unfold writeAt
  split
  · simp_all
  · simp

theorem writeAt_nil (b : List Byte) : writeAt [] 0 b = b := by
  simpa using writeAt_end [] b

/-- A rotation in which every call succeeds.  The writer ends on a handle at
offset 0 of the file the live path then names; when the archive name did not
already name the live file, that file is a new, empty one and the archive name
names the old file. -/
theorem rotate_ok {w : World} (h : w.AllOk) (r : Rotate) (i off : Nat)
    (hfile : r.file = File.live i off) (hentry : w.entries (w.resolve r.name) = some i) :
    ∃ w5 j, r.rotate w = (w5, { r with file := File.live j 0, cnt := 0 }, none) ∧
      w5.AllOk ∧
      w5.log = w.log ++ (rotateCalls r.name (r.fmtFunc r.name (w.clock w.tick))).map
        (fun c => ⟨c, none, 0⟩) ∧
      w5.resolve = w.resolve ∧
      w5.entries (w.resolve r.name) = some j ∧
      (w.entries (w.resolve (r.fmtFunc r.name (w.clock w.tick))) ≠ some i →
        j = w.fresh ∧ w5.data w.fresh = [] ∧
        w5.entries (w.resolve (r.fmtFunc r.name (w.clock w.tick))) = some i ∧
        w5.data i = w.data i) := by
  have h1 := allOk_pop h
  have h2 := allOk_pop h1
  have h3 := allOk_pop h2
  have h4 := allOk_pop h3
  by_cases hn : w.entries (w.resolve (r.fmtFunc r.name (w.clock w.tick))) = some i
  · refine ⟨(r.rotate w).1, i, ?_, ?_, ?_, ?_, ?_, ?_⟩
    all_goals
      simp [Rotate.rotate, hfile, fileSync, fileClose, timeNow, osRename, osOpenFile,
        next_of_allOk, h, h1, h2, h3, h4, hentry, hn, rotateCalls]
  · have hne : w.resolve r.name ≠ w.resolve (r.fmtFunc r.name (w.clock w.tick)) := by
      intro heq
      rw [← heq] at hn
      exact hn hentry
    have hfr : i ≠ w.fresh := Nat.ne_of_lt (w.wf _ _ hentry)
    refine ⟨(r.rotate w).1, w.fresh, ?_, ?_, ?_, ?_, ?_, ?_⟩
    all_goals
      simp [Rotate.rotate, hfile, fileSync, fileClose, timeNow, osRename, osOpenFile,
        next_of_allOk, h, h1, h2, h3, h4, hentry, hn, hne, Ne.symm hne, hfr, rotateCalls]

/-- A write that succeeds puts `b` at the handle's offset and is counted. -/
theorem put_ok {w : World} (h : w.AllOk) (r : Rotate) (i off : Nat) (b : List Byte)
    (hfile : r.file = File.live i off) :
    r.put w b =
      ((w.pop.setData i (writeAt (w.data i) off b)).emit (Call.write b) none b.length,
       { r with file := File.live i (off + b.length), cnt := r.cnt + b.length }, b.length, none) := by
  simp [Rotate.put, hfile, fileWrite, next_of_allOk h]

/-- A `Write` that does not cross the threshold is the plain write. -/
theorem write_below {w : World} (h : w.AllOk) (r : Rotate) (i off : Nat)
    (b : List Byte) (hfile : r.file = File.live i off)
    (hno : ¬ (r.cnt > 0 ∧ r.cnt + b.length > r.maxSize)) :
    r.Write w b =
      ((w.pop.setData i (writeAt (w.data i) off b)).emit (Call.write b) none b.length,
       { r with file := File.live i (off + b.length), cnt := r.cnt + b.length }, b.length, none) := by
  unfold Rotate.Write Rotate.write
  rw [if_neg hno]
  exact put_ok h r i off b hfile

/-- Behaviour of `New`, every call succeeding, on a path that names a file: the
writer adopts the end offset of the file and the disk is left as it is. -/
theorem New_ok_existing {w : World} (h : w.AllOk) (opts : Options) (i : Nat)
    (hentry : w.entries (w.resolve opts.Name) = some i) :
    ∃ w3, New w opts = (w3, Except.ok
        { file := File.live i (w.data i).length
          fmtFunc := opts.FmtFunc.getD FormatFunc
          name := opts.Name
          cnt := (w.data i).length
          maxSize := opts.MaxSize }) ∧
      w3.AllOk ∧ w3.resolve = w.resolve ∧ w3.entries = w.entries ∧ w3.data = w.data ∧
      w3.fresh = w.fresh ∧
      w3.log = w.log ++ [⟨Call.mkdirAll opts.Name, none, 0⟩, ⟨Call.openFile opts.Name, none, 0⟩,
        ⟨Call.seek, none, (w.data i).length⟩] ∧
      w3.clock = w.clock ∧ w3.tick = w.tick := by
  have h1 := allOk_pop h
  have h2 := allOk_pop h1
  have h3 := allOk_pop h2
  refine ⟨(New w opts).1, ?_, ?_, ?_, ?_, ?_, ?_, ?_, ?_, ?_⟩
  all_goals
    simp [New, osMkdirAll, osOpenFile, fileSeekEnd, next_of_allOk, h, h1, h2, h3, hentry]

/-- Behaviour of `New`, every call succeeding, on a path that names no file: an
empty file is created and the writer starts at 0. -/
theorem New_ok_absent {w : World} (h : w.AllOk) (opts : Options)
    (hentry : w.entries (w.resolve opts.Name) = none) :
    ∃ w3, New w opts = (w3, Except.ok
        { file := File.live w.fresh 0
          fmtFunc := opts.FmtFunc.getD FormatFunc
          name := opts.Name
          cnt := 0
          maxSize := opts.MaxSize }) ∧
      w3.AllOk ∧ w3.resolve = w.resolve ∧ w3.entries (w.resolve opts.Name) = some w.fresh ∧
      w3.data w.fresh = [] ∧
      w3.log = w.log ++ [⟨Call.mkdirAll opts.Name, none, 0⟩, ⟨Call.openFile opts.Name, none, 0⟩,
        ⟨Call.seek, none, 0⟩] ∧
      w3.clock = w.clock ∧ w3.tick = w.tick := by
  have h1 := allOk_pop h
  have h2 := allOk_pop h1
  have h3 := allOk_pop h2
  refine ⟨(New w opts).1, ?_, ?_, ?_, ?_, ?_, ?_, ?_, ?_⟩
  all_goals
    simp [New, osMkdirAll, osOpenFile, fileSeekEnd, next_of_allOk, h, h1, h2, h3, hentry]

/-- Writes that stay below the threshold append and never rotate. -/
theorem writes_below (bs : List (List Byte)) :
    ∀ (w : World) (r : Rotate) (i : Nat) (c : List Byte), w.AllOk →
      r.file = File.live i c.length → w.entries (w.resolve r.name) = some i → w.data i = c →
      r.cnt = c.length →
      r.cnt + ((bs.map List.length).sum : Nat) ≤ r.maxSize →
      (writes w r bs).1.read r.name = some (c ++ bs.flatten) ∧
      (writes w r bs).2.2 = bs.map (fun b => (b.length, none)) ∧
      (writes w r bs).2.1.cnt = r.cnt + ((bs.map List.length).sum : Nat) ∧
      (writes w r bs).1.log = w.log ++ bs.map (fun b => ⟨Call.write b, none, b.length⟩) := by
  induction bs with
  | nil =>
    intro w r i c _ _ he hd _ _
    simp [writes, World.read, he, hd]
  | cons b bs ih =>
    intro w r i c hok hfile he hd hcnt hsum
    simp only [List.map_cons, List.sum_cons, Nat.cast_add] at hsum
    have hno : ¬ (r.cnt > 0 ∧ r.cnt + b.length > r.maxSize) := by
      rintro ⟨_, h2⟩
      have : (0 : Int) ≤ ((bs.map List.length).sum : Nat) := Int.natCast_nonneg _
      omega
    have hW := write_below hok r i c.length b hfile hno
    have hok1 : ((w.pop.setData i (writeAt (w.data i) c.length b)).emit
        (Call.write b) none b.length).AllOk := by
      simpa using allOk_pop hok
    have := ih _ { r with file := File.live i (c.length + b.length), cnt := r.cnt + b.length }
      i (c ++ b) hok1 (by simp) (by simpa using he) (by simp [hd, writeAt_end])
      (by simp [hcnt]) (by simp only; omega)
    simp only [writes, hW]
    simp only at this
    obtain ⟨i1, i2, i3, i4⟩ := this
    refine ⟨?_, ?_, ?_, ?_⟩
    · simpa using i1
    · simpa using i2
    · simp [i3]
      omega
    · simp [i4]

/-- C1, as amended. Rotation on threshold crossing: from a state whose counter is
positive and whose live file holds exactly the counted bytes `P`, a `Write(b)`
that would take the counter past `maxSize` (the sum staying within the range of
`int`), with every file operation succeeding and an archive name that does not
name the live file already (it is neither another spelling of the live path nor a
hard link to the live file), makes exactly the calls sync, close, rename, open,
write in that order (one rotation, then the write), leaves `P` in the archive and
`b` alone in the live file, sets the counter to `len(b)` and returns
`(len(b), nil)`. -/
theorem write_rotates_on_crossing (w : World) (r : Rotate) (b P : List Byte) (i off : Nat)
    (hfile : r.file = File.live i off)
    (hentry : w.entries (w.resolve r.name) = some i)
    (hP : w.data i = P)
    (hcnt : r.cnt = P.length)
    (hpos : 0 < r.cnt)
    (hcross : r.cnt + b.length > r.maxSize)
    (hint : r.cnt + b.length < 2 ^ 63)
    (hok : w.AllOk)
    (hname : w.entries (w.resolve (r.fmtFunc r.name (w.clock w.tick))) ≠ some i) :
    (r.Write w b).1.log =
        w.log ++ [⟨Call.sync, none, 0⟩, ⟨Call.close, none, 0⟩,
          ⟨Call.rename r.name (r.fmtFunc r.name (w.clock w.tick)), none, 0⟩,
          ⟨Call.openFile r.name, none, 0⟩, ⟨Call.write b, none, b.length⟩] ∧
      rotations (r.Write w b).1.log = rotations w.log + 1 ∧
      (r.Write w b).1.read (r.fmtFunc r.name (w.clock w.tick)) = some P ∧
      (r.Write w b).1.read r.name = some b ∧
      (r.Write w b).2.1.cnt = b.length ∧
      (r.Write w b).2.2 = (b.length, none) := by
  obtain ⟨w5, j, hrot, hok5, hlog5, hres5, hlive5, hrest⟩ := rotate_ok hok r i off hfile hentry
  obtain ⟨rfl, hnew, harch, hold⟩ := hrest hname
  have hne : i ≠ w.fresh := Nat.ne_of_lt (w.wf _ _ hentry)
  have hput := put_ok hok5 { r with file := File.live w.fresh 0, cnt := 0 } w.fresh 0 b rfl
  have hW : r.Write w b =
      Rotate.put w5 { r with file := File.live w.fresh 0, cnt := 0 } b := by
    unfold Rotate.Write Rotate.write
    rw [if_pos ⟨hpos, hcross⟩, hrot]
  rw [hW, hput]
  simp [World.read, hlog5, hres5, hlive5, hnew, harch, hold, hne, hP, writeAt_nil,
    rotateCalls, rotations, List.filter_cons]

/-! ## The environment in general: every call appends one log entry -/

theorem handleBytes_append (log : List Event) (ev : Event) :
    handleBytes (log ++ [ev]) = account (handleBytes log) ev := by
  simp [handleBytes, List.foldl_append]

theorem sameDisk_refl (w : World) : w.SameDisk w := ⟨rfl, rfl, rfl, rfl⟩

theorem sameDisk_trans {w2 w1 w : World} (h2 : w2.SameDisk w1) (h1 : w1.SameDisk w) :
    w2.SameDisk w :=
  ⟨h2.1.trans h1.1, h2.2.1.trans h1.2.1, h2.2.2.1.trans h1.2.2.1, h2.2.2.2.trans h1.2.2.2⟩

theorem sameDisk_read {w1 w : World} (h : w1.SameDisk w) (p : GoString) :
    w1.read p = w.read p := by
  unfold World.read
  rw [h.1, h.2.1, h.2.2.1]

@[simp]
theorem sameDisk_emit (w1 w : World) (c : Call) (e : Option Error) (n : Nat) :
    (w1.emit c e n).SameDisk w ↔ w1.SameDisk w := Iff.rfl

@[simp]
theorem sameDisk_advance (w1 w : World) : w1.advance.SameDisk w ↔ w1.SameDisk w := Iff.rfl

theorem next_spec {w w1 : World} {f : Fault} (h : w.next = (f, w1)) :
    w1.SameDisk w ∧ w1.log = w.log ∧ w1.clock = w.clock ∧ w1.tick = w.tick := by
  unfold World.next at h
  split at h <;>
    (simp only [Prod.mk.injEq] at h; obtain ⟨_, rfl⟩ := h; exact ⟨sameDisk_refl _, rfl, rfl, rfl⟩)

theorem fileSync_spec {w w1 : World} {f : File} {err : Option Error}
    (h : fileSync w f = (w1, err)) :
    w1.log = w.log ++ [⟨Call.sync, err, 0⟩] ∧ w1.SameDisk w ∧ w1.clock = w.clock ∧
      w1.tick = w.tick ∧ (err = none → ∃ i off, f = File.live i off) := by
  unfold fileSync at h
  cases f with
  | nil =>
    simp only [Prod.mk.injEq] at h
    obtain ⟨rfl, rfl⟩ := h
    simp [sameDisk_refl]
  | closed =>
    simp only [Prod.mk.injEq] at h
    obtain ⟨rfl, rfl⟩ := h
    simp [sameDisk_refl]
  | live i off =>
    rcases hn : w.next with ⟨ft, w2⟩
    obtain ⟨h1, h2, h3, h4⟩ := next_spec hn
    rw [hn] at h
    cases ft <;>
      (simp only [Prod.mk.injEq] at h; obtain ⟨rfl, rfl⟩ := h; simp [h1, h2, h3, h4])

theorem fileClose_spec {w w1 : World} {f f1 : File} {err : Option Error}
    (h : fileClose w f = (w1, f1, err)) :
    w1.log = w.log ++ [⟨Call.close, err, 0⟩] ∧ w1.SameDisk w ∧ w1.clock = w.clock ∧
      w1.tick = w.tick ∧ ((∃ i off, f = File.live i off) → f1 = File.closed) := by
  unfold fileClose at h
  cases f with
  | nil =>
    simp only [Prod.mk.injEq] at h
    obtain ⟨rfl, rfl, rfl⟩ := h
    simp [sameDisk_refl]
  | closed =>
    simp only [Prod.mk.injEq] at h
    obtain ⟨rfl, rfl, rfl⟩ := h
    simp [sameDisk_refl]
  | live i off =>
    rcases hn : w.next with ⟨ft, w2⟩
    obtain ⟨h1, h2, h3, h4⟩ := next_spec hn
    rw [hn] at h
    cases ft <;>
      (simp only [Prod.mk.injEq] at h; obtain ⟨rfl, rfl, rfl⟩ := h; simp [h1, h2, h3, h4])

theorem osRename_spec {w w1 : World} {a b : GoString} {err : Option Error}
    (h : osRename w a b = (w1, err)) :
    w1.log = w.log ++ [⟨Call.rename a b, err, 0⟩] ∧ w1.clock = w.clock ∧ w1.tick = w.tick ∧
      (err ≠ none → w1.SameDisk w) ∧
      (∀ p c, w1.read p = some c → ∃ q, w.read q = some c) := by
  unfold osRename at h
  rcases hn : w.next with ⟨ft, w2⟩
  obtain ⟨h1, h2, h3, h4⟩ := next_spec hn
  have hread : ∀ p, w2.read p = w.read p := sameDisk_read h1
  rw [hn] at h
  cases ft with
  | fail c k =>
    simp only [Prod.mk.injEq] at h
    obtain ⟨rfl, rfl⟩ := h
    refine ⟨by simp [h2], by simp [h3], by simp [h4], fun _ => by simpa using h1, ?_⟩
    intro p c hp
    exact ⟨p, by rw [← hread]; exact hp⟩
  | ok =>
    simp only at h
    cases hf : w2.entries (w2.resolve a) with
    | none =>
      rw [hf] at h
      simp only [Prod.mk.injEq] at h
      obtain ⟨rfl, rfl⟩ := h
      refine ⟨by simp [h2], by simp [h3], by simp [h4], fun _ => by simpa using h1, ?_⟩
      intro p c hp
      exact ⟨p, by rw [← hread]; exact hp⟩
    | some i =>
      rw [hf] at h
      simp only [Prod.mk.injEq] at h
      obtain ⟨rfl, rfl⟩ := h
      refine ⟨?_, ?_, ?_, fun hne => absurd rfl hne, ?_⟩
      · split <;> simp [h2]
      · split <;> simp [h3]
      · split <;> simp [h4]
      · intro p c hp
        split at hp
        · exact ⟨p, by rw [← hread]; exact hp⟩
        · simp only [World.read, emit_entries, emit_resolve, emit_data, move_entries,
            move_resolve, move_data] at hp
          split at hp
          · refine ⟨a, ?_⟩
            rw [← hread]
            exact hp
          · split at hp
            · simp at hp
            · exact ⟨p, by rw [← hread]; exact hp⟩

theorem osOpenFile_spec {w w1 : World} {name : GoString} {f1 : File} {err : Option Error}
    (h : osOpenFile w name = (w1, f1, err)) :
    w1.log = w.log ++ [⟨Call.openFile name, err, 0⟩] ∧ w1.clock = w.clock ∧ w1.tick = w.tick ∧
      (err = none → ∃ j, f1 = File.live j 0) ∧
      (err ≠ none → f1 = File.nil ∧ w1.SameDisk w) := by
  unfold osOpenFile at h
  rcases hn : w.next with ⟨ft, w2⟩
  obtain ⟨h1, h2, h3, h4⟩ := next_spec hn
  rw [hn] at h
  cases ft with
  | fail c k =>
    simp only [Prod.mk.injEq] at h
    obtain ⟨rfl, rfl, rfl⟩ := h
    simp [h1, h2, h3, h4]
  | ok =>
    simp only at h
    cases hf : w2.entries (w2.resolve name) with
    | none =>
      rw [hf] at h
      simp only [Prod.mk.injEq] at h
      obtain ⟨rfl, rfl, rfl⟩ := h
      simp [h2, h3, h4]
    | some i =>
      rw [hf] at h
      simp only [Prod.mk.injEq] at h
      obtain ⟨rfl, rfl, rfl⟩ := h
      simp [h2, h3, h4]

theorem fileWrite_spec {w w1 : World} {f f1 : File} {b : List Byte} {n : Nat}
    {err : Option Error} (h : fileWrite w f b = (w1, f1, n, err)) :
    w1.log = w.log ++ [⟨Call.write b, err, n⟩] ∧ w1.clock = w.clock ∧ w1.tick = w.tick ∧
      (err = none → n = b.length) ∧
      (∀ i off, f = File.live i off → f1 = File.live i (off + n)) ∧
      ((∀ i off, f ≠ File.live i off) → f1 = f ∧ n = 0 ∧ err ≠ none) := by
  unfold fileWrite at h
  cases f with
  | nil => simp only [Prod.mk.injEq] at h; obtain ⟨rfl, rfl, rfl, rfl⟩ := h; simp
  | closed => simp only [Prod.mk.injEq] at h; obtain ⟨rfl, rfl, rfl, rfl⟩ := h; simp
  | live i off =>
    rcases hn : w.next with ⟨ft, w2⟩
    obtain ⟨h1, h2, h3, h4⟩ := next_spec hn
    rw [hn] at h
    cases ft <;>
      (simp only [Prod.mk.injEq] at h; obtain ⟨rfl, rfl, rfl, rfl⟩ := h; simp [h2, h3, h4])

/-- Every way a rotation can end: it completes, or it stops at the first call
that fails, after `k` successful calls, with that call's error. -/
theorem rotate_outcome (w : World) (r : Rotate) :
    ((r.rotate w).2.2 = none ∧
      (r.rotate w).1.log = w.log ++
        (rotateCalls r.name (r.fmtFunc r.name (w.clock w.tick))).map (fun c => ⟨c, none, 0⟩) ∧
      ∃ j, (r.rotate w).2.1 = { r with file := File.live j 0, cnt := 0 }) ∨
    (∃ e, (r.rotate w).2.2 = some e ∧
      (((r.rotate w).1.log =
            w.log ++ failedAt (rotateCalls r.name (r.fmtFunc r.name (w.clock w.tick))) 0 e ∧
          (r.rotate w).2.1 = r ∧ (r.rotate w).1.SameDisk w) ∨
        ((r.rotate w).1.log =
            w.log ++ failedAt (rotateCalls r.name (r.fmtFunc r.name (w.clock w.tick))) 1 e ∧
          (r.rotate w).2.1 = { r with file := File.closed } ∧ (r.rotate w).1.SameDisk w) ∨
        ((r.rotate w).1.log =
            w.log ++ failedAt (rotateCalls r.name (r.fmtFunc r.name (w.clock w.tick))) 2 e ∧
          (r.rotate w).2.1 = { r with file := File.closed } ∧ (r.rotate w).1.SameDisk w) ∨
        ((r.rotate w).1.log =
            w.log ++ failedAt (rotateCalls r.name (r.fmtFunc r.name (w.clock w.tick))) 3 e ∧
          (r.rotate w).2.1 = { r with file := File.nil, cnt := 0 } ∧
          ∀ p c, (r.rotate w).1.read p = some c → ∃ q, w.read q = some c))) := by
  rcases hs : fileSync w r.file with ⟨w1, _ | e1⟩
  swap
  · -- Sync fails
    obtain ⟨l1, f1, -, -, -⟩ := fileSync_spec hs
    have hr : r.rotate w = (w1, r, some e1) := by simp only [Rotate.rotate, hs]
    rw [hr]
    exact Or.inr ⟨e1, rfl, Or.inl ⟨by simp [l1, failedAt, rotateCalls], rfl, f1⟩⟩
  obtain ⟨l1, f1, c1, t1, hlive⟩ := fileSync_spec hs
  obtain ⟨i, off, hfile⟩ := hlive rfl
  rcases hc : fileClose w1 r.file with ⟨w2, file1, _ | e2⟩
  swap
  · -- Close fails
    obtain ⟨l2, f2, -, -, hcl⟩ := fileClose_spec hc
    have hfile1 : file1 = File.closed := hcl ⟨i, off, hfile⟩
    have hr : r.rotate w = (w2, { r with file := File.closed }, some e2) := by
      simp only [Rotate.rotate, hs, hc, hfile1]
    rw [hr]
    exact Or.inr ⟨e2, rfl, Or.inr (Or.inl
      ⟨by simp [l2, l1, failedAt, rotateCalls], rfl, sameDisk_trans f2 f1⟩)⟩
  obtain ⟨l2, f2, c2, t2, hcl⟩ := fileClose_spec hc
  have hfile1 : file1 = File.closed := hcl ⟨i, off, hfile⟩
  have hnow : w2.clock w2.tick = w.clock w.tick := by rw [c2, t2, c1, t1]
  have f3 : w2.advance.SameDisk w := sameDisk_trans (by simpa using sameDisk_refl w2)
    (sameDisk_trans f2 f1)
  rcases hrn : osRename w2.advance r.name (r.fmtFunc r.name (w.clock w.tick)) with ⟨w4, _ | e3⟩
  swap
  · -- Rename fails
    obtain ⟨l4, -, -, f4, -⟩ := osRename_spec hrn
    have hr : r.rotate w = (w4, { r with file := File.closed }, some e3) := by
      simp only [Rotate.rotate, hs, hc, hfile1, timeNow, hnow, hrn]
    rw [hr]
    exact Or.inr ⟨e3, rfl, Or.inr (Or.inr (Or.inl
      ⟨by simp [l4, l2, l1, failedAt, rotateCalls], rfl,
       sameDisk_trans (f4 (by simp)) f3⟩))⟩
  obtain ⟨l4, -, -, -, f4⟩ := osRename_spec hrn
  rcases ho : osOpenFile w4 r.name with ⟨w5, file2, _ | e4⟩
  · -- the rotation completes
    obtain ⟨l5, -, -, hl, -⟩ := osOpenFile_spec ho
    obtain ⟨j, hj⟩ := hl rfl
    have hr : r.rotate w = (w5, { r with file := File.live j 0, cnt := 0 }, none) := by
      simp only [Rotate.rotate, hs, hc, hfile1, timeNow, hnow, hrn, ho, hj]
    rw [hr]
    exact Or.inl ⟨rfl, by simp [l5, l4, l2, l1, rotateCalls], j, rfl⟩
  · -- the reopen fails
    obtain ⟨l5, -, -, -, hn⟩ := osOpenFile_spec ho
    obtain ⟨hnil, f5⟩ := hn (by simp)
    have hr : r.rotate w = (w5, { r with file := File.nil, cnt := 0 }, some e4) := by
      simp only [Rotate.rotate, hs, hc, hfile1, timeNow, hnow, hrn, ho, hnil]
    rw [hr]
    refine Or.inr ⟨e4, rfl, Or.inr (Or.inr (Or.inr
      ⟨by simp [l5, l4, l2, l1, failedAt, rotateCalls], rfl, ?_⟩))⟩
    intro q c hq
    simp only at hq
    rw [sameDisk_read f5] at hq
    obtain ⟨q2, hq2⟩ := f4 q c hq
    exact ⟨q2, by rw [← sameDisk_read f3]; exact hq2⟩

theorem failedAt_call {calls : List Call} {k : Nat} {e : Error} {ev : Event}
    (h : ev ∈ failedAt calls k e) : ev.call ∈ calls := by
  simp only [failedAt, List.mem_append, List.mem_map] at h
  rcases h with ⟨c, hc, rfl⟩ | ⟨c, hc, rfl⟩
  · exact List.mem_of_mem_take hc
  · exact List.mem_of_mem_drop (List.mem_of_mem_take hc)

theorem fileSeekEnd_spec {w w1 : World} {f f1 : File} {n : Nat} {err : Option Error}
    (h : fileSeekEnd w f = (w1, f1, n, err)) :
    w1.log = w.log ++ [⟨Call.seek, err, n⟩] ∧
      (err = none → ∀ i off, f = File.live i off → f1 = File.live i n) := by
  unfold fileSeekEnd at h
  cases f with
  | nil => simp only [Prod.mk.injEq] at h; obtain ⟨rfl, rfl, rfl, rfl⟩ := h; simp
  | closed => simp only [Prod.mk.injEq] at h; obtain ⟨rfl, rfl, rfl, rfl⟩ := h; simp
  | live p off =>
    rcases hn : w.next with ⟨ft, w2⟩
    obtain ⟨h1, h2, h3, h4⟩ := next_spec hn
    rw [hn] at h
    cases ft <;>
      (simp only [Prod.mk.injEq] at h; obtain ⟨rfl, rfl, rfl, rfl⟩ := h; simp [h2])

/-- What `New` establishes when it returns a writer. -/
theorem New_spec {w w0 : World} {opts : Options} {r0 : Rotate}
    (h : New w opts = (w0, Except.ok r0)) :
    r0.maxSize = opts.MaxSize ∧ r0.name = opts.Name ∧
      ∃ i off : Nat, r0.file = File.live i off ∧ r0.cnt = off ∧ handleBytes w0.log = off := by
  unfold New at h
  rcases hm : osMkdirAll w opts.Name with ⟨w1, _ | e1⟩
  swap
  · rw [hm] at h
    simp at h
  rcases ho : osOpenFile w1 opts.Name with ⟨w2, file, _ | e2⟩
  swap
  · rw [hm] at h
    simp only [ho] at h
    simp at h
  rcases hk : fileSeekEnd w2 file with ⟨w3, file1, n, _ | e3⟩
  swap
  · rw [hm] at h
    simp only [ho, hk] at h
    simp at h
  rw [hm] at h
  simp only [ho, hk, Prod.mk.injEq, Except.ok.injEq] at h
  obtain ⟨rfl, rfl⟩ := h
  obtain ⟨-, -, -, hl, -⟩ := osOpenFile_spec ho
  obtain ⟨l3, hf⟩ := fileSeekEnd_spec hk
  obtain ⟨j, hj⟩ := hl rfl
  refine ⟨rfl, rfl, j, n, hf rfl _ _ hj, rfl, ?_⟩
  rw [l3, handleBytes_append]
  rfl

/-- What the write proper does to the writer and the log, whatever its outcome. -/
theorem put_spec (w : World) (r : Rotate) (b : List Byte) :
    (r.put w b).1.log = w.log ++ [⟨Call.write b, (r.put w b).2.2.2, (r.put w b).2.2.1⟩] ∧
      (r.put w b).2.1.maxSize = r.maxSize ∧
      ((r.put w b).2.2.2 = none →
        (r.put w b).2.1.cnt = r.cnt + b.length ∧ (r.put w b).2.2.1 = b.length) ∧
      ((r.put w b).2.2.2 ≠ none → (r.put w b).2.1.cnt = r.cnt) ∧
      (∀ i off, r.file = File.live i off →
        (r.put w b).2.1.file = File.live i (off + (r.put w b).2.2.1)) ∧
      ((∀ i off, r.file ≠ File.live i off) → (r.put w b).2.1.file = r.file) := by
  rcases hw : fileWrite w r.file b with ⟨w1, f1, n, _ | e⟩
  · obtain ⟨l, -, -, hn, hl, hnl⟩ := fileWrite_spec hw
    have hp : r.put w b = (w1, { r with file := f1, cnt := r.cnt + n }, n, none) := by
      simp only [Rotate.put, hw]
    rw [hp]
    refine ⟨l, rfl, fun _ => ⟨by simp [hn rfl], hn rfl⟩, fun h => absurd rfl h, hl, ?_⟩
    intro h
    exact (hnl h).1
  · obtain ⟨l, -, -, -, hl, hnl⟩ := fileWrite_spec hw
    have hp : r.put w b = (w1, { r with file := f1 }, n, some e) := by
      simp only [Rotate.put, hw]
    rw [hp]
    refine ⟨l, rfl, fun h => by simp at h, fun _ => rfl, hl, ?_⟩
    intro h
    exact (hnl h).1

/-- C5. A failed rotation aborts the write: when `Write(b)` triggers a rotation
and some call of the rotation fails with error `e`, `Write` returns `(0, e)`; the
calls made are the first `k < 4` calls of sync, close, rename, open, all
successful, followed by the failing call and nothing after it; no write call is
made and every file's content is a content that was on disk before; when the sync
is the call that fails (`k = 0`) the writer (its handle and its counter) and the
disk (names, files and contents) are unchanged. -/
theorem failed_rotation_aborts_write (w : World) (r : Rotate) (b : List Byte) (e : Error)
    (htrig : r.cnt > 0 ∧ r.cnt + b.length > r.maxSize)
    (hfail : (r.rotate w).2.2 = some e) :
    (r.Write w b).2.2 = (0, some e) ∧
      (∃ k, k < 4 ∧
        (r.Write w b).1.log =
          w.log ++ failedAt (rotateCalls r.name (r.fmtFunc r.name (w.clock w.tick))) k e ∧
        (k = 0 → (r.Write w b).2.1 = r ∧ (r.Write w b).1.SameDisk w)) ∧
      (∀ ev ∈ (r.Write w b).1.log.drop w.log.length, ∀ c, ev.call ≠ Call.write c) ∧
      (∀ p c, (r.Write w b).1.read p = some c → ∃ q, w.read q = some c) := by
  have hW : r.Write w b = ((r.rotate w).1, (r.rotate w).2.1, 0, some e) := by
    unfold Rotate.Write Rotate.write
    rw [if_pos htrig]
    rcases hr : r.rotate w with ⟨w1, r1, err⟩
    rw [hr] at hfail
    simp only at hfail
    rw [hfail]
  have key : ∃ k, k < 4 ∧
      (r.rotate w).1.log =
        w.log ++ failedAt (rotateCalls r.name (r.fmtFunc r.name (w.clock w.tick))) k e ∧
      (k = 0 → (r.rotate w).2.1 = r ∧ (r.rotate w).1.SameDisk w) ∧
      (∀ p c, (r.rotate w).1.read p = some c → ∃ q, w.read q = some c) := by
    rcases rotate_outcome w r with ⟨hnone, -, -⟩ | ⟨e2, he2, hcases⟩
    · rw [hnone] at hfail
      exact absurd hfail (by simp)
    · rw [he2] at hfail
      obtain rfl : e2 = e := by simpa using hfail
      rcases hcases with ⟨hl, hr, hf⟩ | ⟨hl, -, hf⟩ | ⟨hl, -, hf⟩ | ⟨hl, -, hf⟩
      · exact ⟨0, by omega, hl, fun _ => ⟨hr, hf⟩, fun p c hp => ⟨p, by rw [← sameDisk_read hf, hp]⟩⟩
      · exact ⟨1, by omega, hl, fun h => absurd h (by omega), fun p c hp => ⟨p, by rw [← sameDisk_read hf, hp]⟩⟩
      · exact ⟨2, by omega, hl, fun h => absurd h (by omega), fun p c hp => ⟨p, by rw [← sameDisk_read hf, hp]⟩⟩
      · exact ⟨3, by omega, hl, fun h => absurd h (by omega), hf⟩
  obtain ⟨k, hk, hlog, hzero, hfiles⟩ := key
  rw [hW]
  refine ⟨rfl, ⟨k, hk, hlog, hzero⟩, ?_, hfiles⟩
  intro ev hev c hc
  simp only [hlog, List.drop_left] at hev
  have := failedAt_call hev
  rw [hc] at this
  simp [rotateCalls] at this

/-! ## Invariants of the writer -/

/-- The threshold is never changed by `Write`. -/
theorem write_maxSize (w : World) (r : Rotate) (b : List Byte) :
    (r.Write w b).2.1.maxSize = r.maxSize := by
  unfold Rotate.Write Rotate.write
  split
  · rcases hr : r.rotate w with ⟨w1, r1, _ | e⟩
    · have hm : r1.maxSize = r.maxSize := by
        rcases rotate_outcome w r with ⟨-, -, j, h⟩ | ⟨e, he, h⟩
        · rw [hr] at h
          simp only at h
          rw [h]
        · rw [hr] at he
          simp at he
      simp only
      rw [(put_spec w1 r1 b).2.1, hm]
    · simp only
      rcases rotate_outcome w r with ⟨hn, -, -⟩ | ⟨e2, -, h⟩
      · rw [hr] at hn
        simp at hn
      · rw [hr] at h
        simp only at h
        rcases h with ⟨-, h, -⟩ | ⟨-, h, -⟩ | ⟨-, h, -⟩ | ⟨-, h, -⟩ <;> rw [h]
  · exact (put_spec w r b).2.1

/-- Counter after one `Write`: it is left alone, reset by a rotation, or raised
by the bytes of a write that succeeded. -/
theorem write_cnt (w : World) (r : Rotate) (b : List Byte) :
    ((r.Write w b).2.2.2 = none →
      (r.Write w b).2.2.1 = b.length ∧
      (((r.cnt > 0 ∧ r.cnt + b.length > r.maxSize) ∧ (r.Write w b).2.1.cnt = b.length) ∨
       (¬ (r.cnt > 0 ∧ r.cnt + b.length > r.maxSize) ∧
          (r.Write w b).2.1.cnt = r.cnt + b.length))) ∧
    ((r.Write w b).2.2.2 ≠ none → (r.Write w b).2.1.cnt = r.cnt ∨ (r.Write w b).2.1.cnt = 0) := by
  unfold Rotate.Write Rotate.write
  split
  · rename_i hc
    rcases hr : r.rotate w with ⟨w1, r1, _ | e⟩
    · have hr1 : ∃ j, r1 = { r with file := File.live j 0, cnt := 0 } := by
        rcases rotate_outcome w r with ⟨-, -, h⟩ | ⟨e, he, h⟩
        · rw [hr] at h
          exact h
        · rw [hr] at he
          simp at he
      obtain ⟨j, hr1⟩ := hr1
      simp only
      obtain ⟨-, -, hok, hbad, -, -⟩ := put_spec w1 r1 b
      refine ⟨fun h => ?_, fun h => ?_⟩
      · obtain ⟨h1, h2⟩ := hok h
        exact ⟨h2, Or.inl ⟨hc, by rw [h1, hr1]; simp⟩⟩
      · right
        rw [hbad h, hr1]
    · simp only
      refine ⟨fun h => by simp at h, fun _ => ?_⟩
      rcases rotate_outcome w r with ⟨hn, -, -⟩ | ⟨e2, -, h⟩
      · rw [hr] at hn
        simp at hn
      · rw [hr] at h
        simp only at h
        rcases h with ⟨-, h, -⟩ | ⟨-, h, -⟩ | ⟨-, h, -⟩ | ⟨-, h, -⟩ <;> rw [h] <;> simp
  · rename_i hc
    obtain ⟨-, -, hok, hbad, -, -⟩ := put_spec w r b
    refine ⟨fun h => ?_, fun h => Or.inl (hbad h)⟩
    obtain ⟨h1, h2⟩ := hok h
    exact ⟨h2, Or.inr ⟨hc, h1⟩⟩

/-- The counter is never negative: it starts as a file offset. -/
theorem writes_cnt_nonneg (bs : List (List Byte)) :
    ∀ (w : World) (r : Rotate), 0 ≤ r.cnt →
      0 ≤ (writes w r bs).2.1.cnt ∧ (writes w r bs).2.1.maxSize = r.maxSize := by
  induction bs with
  | nil => intro w r h; exact ⟨h, rfl⟩
  | cons b bs ih =>
    intro w r h
    have h1 : 0 ≤ (r.Write w b).2.1.cnt := by
      obtain ⟨hok, hbad⟩ := write_cnt w r b
      cases herr : (r.Write w b).2.2.2 with
      | none =>
        rcases (hok herr).2 with ⟨-, h2⟩ | ⟨-, h2⟩ <;> rw [h2] <;> omega
      | some e =>
        rcases hbad (by simp [herr]) with h2 | h2 <;> rw [h2] <;> omega
    obtain ⟨i1, i2⟩ := ih (r.Write w b).1 (r.Write w b).2.1 h1
    simp only [writes]
    exact ⟨i1, by rw [i2, write_maxSize]⟩

/-- C10. Size bound of the live file: in a state reached from `New` by any
sequence of `Write` calls, a `Write(b)` that succeeds in full (returns `len(b)`
and no error) leaves the counter at most `maxSize`, or equal to `len(b)`. -/
theorem live_file_size_bound (w w0 : World) (opts : Options) (r0 : Rotate)
    (bs : List (List Byte)) (b : List Byte)
    (hnew : New w opts = (w0, Except.ok r0))
    (hfull : ((writes w0 r0 bs).2.1.Write (writes w0 r0 bs).1 b).2.2 = (b.length, none)) :
    ((writes w0 r0 bs).2.1.Write (writes w0 r0 bs).1 b).2.1.cnt ≤ opts.MaxSize ∨
      ((writes w0 r0 bs).2.1.Write (writes w0 r0 bs).1 b).2.1.cnt = b.length := by
  obtain ⟨hmax, -, -, off, -, hcnt, -⟩ := New_spec hnew
  obtain ⟨hpos, hm⟩ := writes_cnt_nonneg bs w0 r0 (by rw [hcnt]; omega)
  have herr : ((writes w0 r0 bs).2.1.Write (writes w0 r0 bs).1 b).2.2.2 = none := by
    rw [hfull]
  rcases ((write_cnt (writes w0 r0 bs).1 (writes w0 r0 bs).2.1 b).1 herr).2 with
    ⟨-, h⟩ | ⟨hno, h⟩
  · exact Or.inr h
  · rw [h]
    rw [hm, hmax] at hno
    by_cases h0 : (writes w0 r0 bs).2.1.cnt = 0
    · right
      rw [h0]
      simp
    · left
      have : (writes w0 r0 bs).2.1.cnt > 0 := by omega
      have := fun h2 => hno ⟨this, h2⟩
      omega

/-- One `Write` keeps the counter equal to the handle's offset and to the bytes
put into the handle's file, provided that a failing call reports no byte
written. -/
theorem write_counted (w : World) (r : Rotate) (b : List Byte)
    (hinv : ∀ p off, r.file = File.live p off → r.cnt = off ∧ r.cnt = handleBytes w.log)
    (hclean : (r.Write w b).2.2.2 ≠ none → (r.Write w b).2.2.1 = 0) :
    ∀ p off, (r.Write w b).2.1.file = File.live p off →
      (r.Write w b).2.1.cnt = off ∧ (r.Write w b).2.1.cnt = handleBytes (r.Write w b).1.log := by
  have hput : ∀ (w1 : World) (r1 : Rotate),
      (∀ p off, r1.file = File.live p off → r1.cnt = off ∧ r1.cnt = handleBytes w1.log) →
      ((r1.put w1 b).2.2.2 ≠ none → (r1.put w1 b).2.2.1 = 0) →
      ∀ p off, (r1.put w1 b).2.1.file = File.live p off →
        (r1.put w1 b).2.1.cnt = off ∧ (r1.put w1 b).2.1.cnt = handleBytes (r1.put w1 b).1.log := by
    intro w1 r1 hi hc p off hfile
    obtain ⟨hl, -, hok, hbad, hlive, hdead⟩ := put_spec w1 r1 b
    have hl1 : ∃ p1 off1, r1.file = File.live p1 off1 := by
      by_contra hcon
      push_neg at hcon
      rw [hdead hcon] at hfile
      exact hcon p off hfile
    obtain ⟨p1, off1, hf1⟩ := hl1
    obtain ⟨i1, i2⟩ := hi p1 off1 hf1
    have hf2 := hlive p1 off1 hf1
    rw [hfile] at hf2
    simp only [File.live.injEq] at hf2
    obtain ⟨-, hoff⟩ := hf2
    rw [hl, handleBytes_append]
    simp only [account]
    cases herr : (r1.put w1 b).2.2.2 with
    | none =>
      obtain ⟨h1, h2⟩ := hok herr
      rw [h1, hoff, h2, i1]
      constructor
      · push_cast; ring
      · rw [← i1, i2]; push_cast; ring
    | some e =>
      have h0 := hc (by simp [herr])
      rw [hbad (by simp [herr]), hoff, h0]
      constructor
      · simpa using i1
      · simpa using i2
  unfold Rotate.Write Rotate.write at hclean ⊢
  split at hclean
  · rename_i hc
    rw [if_pos hc]
    rcases hr : r.rotate w with ⟨w1, r1, _ | e⟩
    · rw [hr] at hclean
      simp only at hclean ⊢
      apply hput w1 r1 _ hclean
      rcases rotate_outcome w r with ⟨-, hl, j, h⟩ | ⟨e, he, h⟩
      · rw [hr] at h hl
        simp only at h hl
        intro p off hf
        rw [h] at hf ⊢
        simp only [File.live.injEq] at hf
        rw [hl]
        simp [handleBytes, List.foldl_append, rotateCalls, account, ← hf.2]
      · rw [hr] at he
        simp at he
    · simp only
      rcases rotate_outcome w r with ⟨hn, -, -⟩ | ⟨e2, he, h⟩
      · rw [hr] at hn
        simp at hn
      · rw [hr] at h
        simp only at h
        rcases h with ⟨hl, h, -⟩ | ⟨-, h, -⟩ | ⟨-, h, -⟩ | ⟨-, h, -⟩
        · intro p off hf
          rw [h] at hf ⊢
          rw [hl]
          simpa [handleBytes, List.foldl_append, failedAt, rotateCalls, account] using hinv p off hf
        all_goals
          intro p off hf
          rw [h] at hf
          simp at hf
  · rename_i hc
    rw [if_neg hc]
    exact hput w r hinv hclean

theorem writes_counted (bs : List (List Byte)) :
    ∀ (w : World) (r : Rotate),
      (∀ p off, r.file = File.live p off → r.cnt = off ∧ r.cnt = handleBytes w.log) →
      (∀ x ∈ (writes w r bs).2.2, x.2 ≠ none → x.1 = 0) →
      ∀ p off, (writes w r bs).2.1.file = File.live p off →
        (writes w r bs).2.1.cnt = off ∧
        (writes w r bs).2.1.cnt = handleBytes (writes w r bs).1.log := by
  induction bs with
  | nil => intro w r h _; exact h
  | cons b bs ih =>
    intro w r hinv hclean
    simp only [writes] at hclean ⊢
    apply ih
    · apply write_counted w r b hinv
      exact hclean ((r.Write w b).2.2.1, (r.Write w b).2.2.2) (by simp)
    · intro x hx
      exact hclean x (by simp [hx])

/-- C9, as amended. Counter invariant: in every state reached from `New` by a
sequence of `Write` calls, rotations that fail included, in which every `Write`
that returned an error reported 0 bytes written, a writer that holds an open
handle has a counter equal to the handle's offset and to the number of bytes put
into the handle's file since it was opened (plus the length adopted by `New` when
the handle is still the one `New` opened). -/
theorem counter_counts_handle_bytes (w w0 : World) (opts : Options) (r0 : Rotate)
    (bs : List (List Byte)) (i off : Nat)
    (hnew : New w opts = (w0, Except.ok r0))
    (hclean : ∀ x ∈ (writes w0 r0 bs).2.2, x.2 ≠ none → x.1 = 0)
    (hlive : (writes w0 r0 bs).2.1.file = File.live i off) :
    (writes w0 r0 bs).2.1.cnt = off ∧
      (writes w0 r0 bs).2.1.cnt = handleBytes (writes w0 r0 bs).1.log := by
  obtain ⟨-, -, i0, off0, hfile, hcnt, hbytes⟩ := New_spec hnew
  refine writes_counted bs w0 r0 ?_ hclean i off hlive
  intro p1 off1 h1
  rw [hfile] at h1
  simp only [File.live.injEq] at h1
  rw [hcnt, hbytes, ← h1.2]
  exact ⟨rfl, rfl⟩

theorem rotations_append (l1 l2 : List Event) :
    rotations (l1 ++ l2) = rotations l1 + rotations l2 := by
  simp [rotations, List.filter_append]

theorem rotations_writes (bs : List (List Byte)) :
    rotations (bs.map (fun b => (⟨Call.write b, none, b.length⟩ : Event))) = 0 := by
  simp [rotations, List.filter_eq_nil_iff]

/-- C2. No rotation below the threshold: a writer created by `New` on an absent
or empty file, followed by writes `b1..bk` whose cumulative length never exceeds
`MaxSize`, all file operations succeeding, makes no rotation (the only calls after
`New` are the `k` writes), leaves the concatenation `b1 ++ ... ++ bk` in the live
file, returns `(len(bi), nil)` from every `Write`, and ends with the counter equal
to the cumulative length. -/
theorem no_rotation_below_threshold (w : World) (opts : Options) (bs : List (List Byte))
    (hfresh : w.read opts.Name = none ∨ w.read opts.Name = some [])
    (hok : w.AllOk)
    (hsum : ∀ k ≤ bs.length, ((((bs.take k).map List.length).sum : Nat) : Int) ≤ opts.MaxSize) :
    ∃ w0 r0, New w opts = (w0, Except.ok r0) ∧
      (writes w0 r0 bs).1.log =
        w0.log ++ bs.map (fun b => ⟨Call.write b, none, b.length⟩) ∧
      rotations (writes w0 r0 bs).1.log = rotations w.log ∧
      (writes w0 r0 bs).1.read opts.Name = some bs.flatten ∧
      (writes w0 r0 bs).2.2 = bs.map (fun b => (b.length, none)) ∧
      (writes w0 r0 bs).2.1.cnt = ((bs.map List.length).sum : Nat) := by
  have htot := hsum bs.length (le_refl _)
  rw [List.take_length] at htot
  cases hentry : w.entries (w.resolve opts.Name) with
  | none =>
    obtain ⟨w3, hnew, hok3, hres3, hent3, hdata3, hlog3, -, -⟩ := New_ok_absent hok opts hentry
    have key := writes_below bs w3
      { file := File.live w.fresh ([] : List Byte).length
        fmtFunc := opts.FmtFunc.getD FormatFunc
        name := opts.Name
        cnt := (([] : List Byte).length : Nat)
        maxSize := opts.MaxSize } w.fresh [] hok3 rfl (by rw [hres3]; exact hent3) hdata3 rfl
      (by simpa using htot)
    simp only [List.length_nil, Nat.cast_zero] at key
    obtain ⟨i1, i2, i3, i4⟩ := key
    refine ⟨w3, _, hnew, i4, ?_, by simpa using i1, i2, by simpa using i3⟩
    rw [i4, hlog3, rotations_append, rotations_append, rotations_writes]
    simp [rotations]
  | some i =>
    have hdata : w.data i = [] := by
      rcases hfresh with h | h <;> simpa [World.read, hentry] using h
    obtain ⟨w3, hnew, hok3, hres3, hent3, hdata3, -, hlog3, -, -⟩ :=
      New_ok_existing hok opts i hentry
    rw [hdata] at hnew hlog3
    simp only [List.length_nil, Nat.cast_zero] at hnew hlog3
    have key := writes_below bs w3
      { file := File.live i ([] : List Byte).length
        fmtFunc := opts.FmtFunc.getD FormatFunc
        name := opts.Name
        cnt := (([] : List Byte).length : Nat)
        maxSize := opts.MaxSize } i [] hok3 rfl (by rw [hres3, hent3]; exact hentry)
      (by rw [hdata3]; exact hdata) rfl (by simpa using htot)
    simp only [List.length_nil, Nat.cast_zero] at key
    obtain ⟨i1, i2, i3, i4⟩ := key
    refine ⟨w3, _, hnew, i4, ?_, by simpa using i1, i2, by simpa using i3⟩
    rw [i4, hlog3, rotations_append, rotations_append, rotations_writes]
    simp [rotations]

/-- C3. Zero-count guard: whatever the threshold (zero and negative included), a
`Write(b)` with `len(b) > maxSize` issued when the counter is 0 on an empty live
file makes no rotation (its only call is the write), puts `b` in the live file,
and leaves the counter equal to `len(b)`. -/
theorem zero_count_guard (w : World) (r : Rotate) (b : List Byte) (i : Nat)
    (hcnt : r.cnt = 0)
    (hfile : r.file = File.live i 0)
    (hentry : w.entries (w.resolve r.name) = some i)
    (hempty : w.data i = [])
    (hbig : r.maxSize < b.length)
    (hok : w.AllOk) :
    (r.Write w b).1.log = w.log ++ [⟨Call.write b, none, b.length⟩] ∧
      rotations (r.Write w b).1.log = rotations w.log ∧
      (r.Write w b).1.read r.name = some b ∧
      (r.Write w b).2.1.cnt = b.length ∧
      (r.Write w b).2.2 = (b.length, none) := by
  have hno : ¬ (r.cnt > 0 ∧ r.cnt + b.length > r.maxSize) := by
    rw [hcnt]
    simp
  rw [write_below hok r i 0 b hfile hno]
  simp [World.read, hentry, hempty, writeAt_nil, hcnt, rotations, List.filter_append]

/-- The name made by `FormatFunc` is longer than the path it is given. -/
theorem FormatFunc_length (name : GoString) (t : Time) :
    name.length < (FormatFunc name t).length := by
  have hlen : ∀ s suffix : GoString, hasSuffix s suffix = true →
      (trimSuffix s suffix).length + suffix.length = s.length := by
    intro s suffix h
    simp only [hasSuffix, Bool.and_eq_true, decide_eq_true_eq] at h
    simp only [trimSuffix, hasSuffix, h.1, h.2, decide_True, Bool.and_self, if_true,
      List.length_take]
    omega
  by_cases h : hasSuffix name (filepathExt name) = true
  · have := hlen _ _ h
    simp only [FormatFunc, List.length_append, String.toList, List.length_cons, List.length_nil]
    omega
  · simp only [FormatFunc, trimSuffix, h, List.length_append, String.toList, List.length_cons,
      List.length_nil, Bool.false_eq_true, if_false]
    omega

theorem FormatFunc_ne (name : GoString) (t : Time) : FormatFunc name t ≠ name := by
  intro h
  have := FormatFunc_length name t
  rw [h] at this
  omega


/-- C4, as amended. Resume on a pre-existing file: `New` on a path whose file
holds `P`, of length `L > 0`, returns a writer with counter `L` and its handle on
that file at offset `L` (the end of the file), and leaves the disk as it is; with
every file operation succeeding and `L + len(b)` within the range of `int`, the
first `Write(b)` rotates if and only if `L + len(b) > MaxSize`; without rotation
the live file becomes `P ++ b`; with rotation, when the archive name does not name
the live file already (it is neither another spelling of the path nor a hard link
to the file), the archive holds exactly `P` and the live file exactly `b`. -/
theorem resume_on_existing_file (w : World) (opts : Options) (P b : List Byte)
    (hP : w.read opts.Name = some P)
    (hL : 0 < P.length)
    (hint : (P.length : Int) + b.length < 2 ^ 63)
    (hok : w.AllOk) :
    ∃ w0 r0 i, New w opts = (w0, Except.ok r0) ∧
      w.entries (w.resolve opts.Name) = some i ∧ w0.SameDisk w ∧
      r0.cnt = P.length ∧ r0.file = File.live i P.length ∧
      (rotations (r0.Write w0 b).1.log = rotations w0.log + 1 ↔
        (P.length : Int) + b.length > opts.MaxSize) ∧
      (¬ ((P.length : Int) + b.length > opts.MaxSize) →
        rotations (r0.Write w0 b).1.log = rotations w0.log ∧
        (r0.Write w0 b).1.read opts.Name = some (P ++ b)) ∧
      ((P.length : Int) + b.length > opts.MaxSize →
        w.entries (w.resolve (r0.fmtFunc opts.Name (w0.clock w0.tick))) ≠
          w.entries (w.resolve opts.Name) →
        (r0.Write w0 b).1.read (r0.fmtFunc opts.Name (w0.clock w0.tick)) = some P ∧
        (r0.Write w0 b).1.read opts.Name = some b) := by
  cases hentry : w.entries (w.resolve opts.Name) with
  | none => simp [World.read, hentry] at hP
  | some i =>
    have hdata : w.data i = P := by simpa [World.read, hentry] using hP
    obtain ⟨w3, hnew, hok3, hres3, hent3, hdata3, hfresh3, -, -, -⟩ :=
      New_ok_existing hok opts i hentry
    rw [hdata] at hnew
    refine ⟨w3, _, i, hnew, rfl, ⟨hres3, hent3, hdata3, hfresh3⟩, rfl, rfl, ?_⟩
    have hstay : ¬ ((P.length : Int) + b.length > opts.MaxSize) →
        rotations (Rotate.Write w3
            { file := File.live i P.length
              fmtFunc := opts.FmtFunc.getD FormatFunc
              name := opts.Name
              cnt := P.length
              maxSize := opts.MaxSize } b).1.log = rotations w3.log ∧
        (Rotate.Write w3
            { file := File.live i P.length
              fmtFunc := opts.FmtFunc.getD FormatFunc
              name := opts.Name
              cnt := P.length
              maxSize := opts.MaxSize } b).1.read opts.Name = some (P ++ b) := by
      intro hno
      rw [write_below hok3 _ i P.length b rfl (fun h => hno h.2)]
      simp [World.read, hres3, hent3, hdata3, hentry, hdata, writeAt_end, rotations,
        List.filter_append]
    have hcross : (P.length : Int) + b.length > opts.MaxSize →
        rotations (Rotate.Write w3
            { file := File.live i P.length
              fmtFunc := opts.FmtFunc.getD FormatFunc
              name := opts.Name
              cnt := P.length
              maxSize := opts.MaxSize } b).1.log = rotations w3.log + 1 ∧
        (w.entries (w.resolve (opts.FmtFunc.getD FormatFunc opts.Name (w3.clock w3.tick))) ≠
            some i →
          (Rotate.Write w3
            { file := File.live i P.length
              fmtFunc := opts.FmtFunc.getD FormatFunc
              name := opts.Name
              cnt := P.length
              maxSize := opts.MaxSize } b).1.read
                (opts.FmtFunc.getD FormatFunc opts.Name (w3.clock w3.tick)) = some P ∧
          (Rotate.Write w3
            { file := File.live i P.length
              fmtFunc := opts.FmtFunc.getD FormatFunc
              name := opts.Name
              cnt := P.length
              maxSize := opts.MaxSize } b).1.read opts.Name = some b) := by
      intro hc
      obtain ⟨w5, j, hrot, hok5, hlog5, hres5, hlive5, hrest⟩ := rotate_ok hok3
        { file := File.live i P.length
          fmtFunc := opts.FmtFunc.getD FormatFunc
          name := opts.Name
          cnt := P.length
          maxSize := opts.MaxSize } i P.length rfl (by rw [hres3, hent3]; exact hentry)
      have hW : Rotate.Write w3
            { file := File.live i P.length
              fmtFunc := opts.FmtFunc.getD FormatFunc
              name := opts.Name
              cnt := P.length
              maxSize := opts.MaxSize } b =
          Rotate.put w5
            { file := File.live j 0
              fmtFunc := opts.FmtFunc.getD FormatFunc
              name := opts.Name
              cnt := 0
              maxSize := opts.MaxSize } b := by
        unfold Rotate.Write Rotate.write
        rw [if_pos ⟨by simpa using hL, hc⟩, hrot]
      rw [hW, put_ok hok5 _ j 0 b rfl]
      simp only at hlog5 hres5 hlive5 hrest
      refine ⟨by simp [hlog5, rotateCalls, rotations, List.filter_append, List.filter_cons], ?_⟩
      intro hne
      rw [hres3, hent3] at hrest
      obtain ⟨rfl, hnew5, harch, hold⟩ := hrest hne
      have hne2 : i ≠ w3.fresh := by rw [hfresh3]; exact Nat.ne_of_lt (w.wf _ _ hentry)
      rw [hres3] at hres5 hlive5
      simp [World.read, hres5, hlive5, hnew5, harch, hold, hne2, hdata3, hdata,
        writeAt_nil]
    refine ⟨⟨fun h => ?_, fun h => (hcross h).1⟩, hstay, fun h => (hcross h).2⟩
    by_contra hno
    rw [(hstay hno).1] at h
    omega

/-! ## Digits and string order -/

theorem digit_cases (d : Nat) :
    digit d ∈ ['0', '1', '2', '3', '4', '5', '6', '7', '8', '9'] := by
  have h : d % 10 < 10 := Nat.mod_lt _ (by decide)
  unfold digit
  generalize d % 10 = k at h
  interval_cases k <;> decide

theorem digit_isDigit (d : Nat) : (digit d).isDigit = true := by
  have h : d % 10 < 10 := Nat.mod_lt _ (by decide)
  unfold digit
  generalize d % 10 = k at h
  interval_cases k <;> decide

theorem digit_lt {d1 d2 : Nat} (h : d1 % 10 < d2 % 10) : digit d1 < digit d2 := by
  have h1 : d1 % 10 < 10 := Nat.mod_lt _ (by decide)
  have h2 : d2 % 10 < 10 := Nat.mod_lt _ (by decide)
  unfold digit
  generalize d1 % 10 = k1 at h h1
  generalize d2 % 10 = k2 at h h2
  interval_cases k1 <;> interval_cases k2 <;> first | omega | decide

theorem digit_eq {d1 d2 : Nat} (h : d1 % 10 = d2 % 10) : digit d1 = digit d2 := by
  unfold digit
  rw [h]

theorem digit_zero_le (d : Nat) : '0' ≤ digit d := by
  have h : d % 10 < 10 := Nat.mod_lt _ (by decide)
  unfold digit
  generalize d % 10 = k at h
  interval_cases k <;> decide

theorem digit_eq_zero {d : Nat} (h : digit d = '0') : d % 10 = 0 := by
  have h1 : d % 10 < 10 := Nat.mod_lt _ (by decide)
  unfold digit at h
  generalize d % 10 = k at h h1
  interval_cases k <;> first | rfl | (exact absurd h (by decide))

theorem strLess_cons_lt {a b : Char} (h : a < b) (x y : GoString) :
    strLess (a :: x) (b :: y) = true := by
  simp [strLess, h]

theorem strLess_cons_same (a : Char) (x y : GoString) :
    strLess (a :: x) (a :: y) = strLess x y := by
  simp [strLess]

theorem strLess_append_left (p x y : GoString) : strLess (p ++ x) (p ++ y) = strLess x y := by
  induction p with
  | nil => rfl
  | cons a p ih => simpa [strLess_cons_same] using ih

theorem strLess_irrefl (x : GoString) : strLess x x = false := by
  induction x with
  | nil => rfl
  | cons a x ih => simpa [strLess_cons_same] using ih

/-! ## `appendInt` on fixed-width fields -/

theorem fixed_length (w n : Nat) : (fixed w n).length = w := by
  induction w generalizing n with
  | zero => rfl
  | succ w ih => simp [fixed, ih]

theorem fixed_zero (w : Nat) : fixed w 0 = List.replicate w '0' := by
  induction w with
  | zero => rfl
  | succ w ih =>
    simp only [fixed, Nat.zero_div, ih]
    rw [show digit 0 = '0' from rfl, ← List.replicate_succ']

theorem utod_pad (w : Nat) : ∀ fuel n : Nat, n < fuel → n < 10 ^ (w + 1) →
    List.replicate (w + 1 - (utod fuel n).length) '0' ++ utod fuel n = fixed (w + 1) n := by
  induction w with
  | zero =>
    intro fuel n hf hn
    obtain ⟨f, rfl⟩ : ∃ f, fuel = f + 1 := ⟨fuel - 1, by omega⟩
    have h10 : n < 10 := by simpa using hn
    simp [utod, h10, fixed]
  | succ w ih =>
    intro fuel n hf hn
    obtain ⟨f, rfl⟩ : ∃ f, fuel = f + 1 := ⟨fuel - 1, by omega⟩
    by_cases h10 : n < 10
    · have hz : n / 10 = 0 := by omega
      have hfix : fixed (w + 1 + 1) n = List.replicate (w + 1) '0' ++ [digit n] := by
        rw [show fixed (w + 1 + 1) n = fixed (w + 1) (n / 10) ++ [digit n] from rfl, hz,
          fixed_zero]
      rw [hfix]
      simp only [utod, h10, if_true, List.length_singleton]
      rfl
    · have hlt : n / 10 < f := by omega
      have hpow : n / 10 < 10 ^ (w + 1) := by
        rw [pow_succ] at hn
        omega
      have := ih f (n / 10) hlt hpow
      simp only [utod, h10, if_false, List.length_append, List.length_singleton]
      rw [show w + 1 + 1 - ((utod f (n / 10)).length + 1) = w + 1 - (utod f (n / 10)).length by
        omega, ← List.append_assoc, this]
      rfl

theorem appendInt_fixed (b : List Char) (n w : Nat) (h : n < 10 ^ (w + 1)) :
    appendInt b (n : Int) (w + 1) = b ++ fixed (w + 1) n := by
  have hneg : ¬ ((n : Int) < 0) := by omega
  simp only [appendInt, hneg, if_false, Int.natAbs_ofNat, List.append_assoc]
  rw [utod_pad w (n + 1) n (by omega) h]

theorem appendInt_append (b : List Char) (x : Int) (w : Nat) :
    appendInt b x w = b ++ appendInt [] x w := by
  unfold appendInt
  split <;> simp

theorem utod_stamp (fuel n : Nat) : ∀ c ∈ utod fuel n, c.isDigit = true := by
  induction fuel generalizing n with
  | zero => simp [utod]
  | succ f ih =>
    intro c hc
    simp only [utod] at hc
    split at hc
    · simp only [List.mem_singleton] at hc
      rw [hc]
      exact digit_isDigit n
    · simp only [List.mem_append, List.mem_singleton] at hc
      rcases hc with hc | hc
      · exact ih _ c hc
      · rw [hc]
        exact digit_isDigit n

theorem appendInt_stamp (b : List Char) (x : Int) (w : Nat) (hb : ∀ c ∈ b, stampChar c) :
    ∀ c ∈ appendInt b x w, stampChar c := by
  intro c hc
  simp only [appendInt, List.mem_append] at hc
  rcases hc with (hc | hc) | hc
  · split at hc
    · simp only [List.mem_append, List.mem_singleton] at hc
      rcases hc with hc | hc
      · exact hb c hc
      · rw [hc]
        exact Or.inr (by simp)
    · exact hb c hc
  · rw [(List.mem_replicate.mp hc).2]
    exact Or.inl (by decide)
  · exact Or.inl (utod_stamp _ _ c hc)

/-- The order `strLess` computes is the lexical order of lists of characters
(`List.Lex` over the order of characters). -/
theorem strLess_iff_lex (x y : GoString) :
    strLess x y = true ↔ List.Lex (fun a b : Char => a < b) x y := by
  induction x generalizing y with
  | nil =>
    cases y with
    | nil =>
      simp only [strLess, Bool.false_eq_true, false_iff]
      intro h
      cases h
    | cons b y =>
      simp only [strLess, true_iff]
      exact List.Lex.nil
  | cons a x ih =>
    cases y with
    | nil =>
      simp only [strLess, Bool.false_eq_true, false_iff]
      intro h
      cases h
    | cons b y =>
      simp only [strLess]
      by_cases hab : a < b
      · simp only [hab, if_true, true_iff]
        exact List.Lex.rel hab
      · by_cases hba : b < a
        · simp only [hab, hba, if_false, if_true, Bool.false_eq_true, false_iff]
          intro h
          cases h with
          | rel h1 => exact hab h1
          | cons _ => exact lt_irrefl _ hba
        · have heq : a = b := le_antisymm (not_lt.mp hba) (not_lt.mp hab)
          subst heq
          simp only [hab, if_false]
          rw [ih y]
          constructor
          · intro h
            exact List.Lex.cons h
          · intro h
            cases h with
            | rel h1 => exact absurd h1 hab
            | cons h3 => exact h3

/-! ## What `Format` produces for `fmtLayout` -/

/-- The chunks of `fmtLayout`: year, month, day, hour, minute, second, the
fraction with trailing zeros removed, the hours of the zone offset, and the
literal text around them; the final `_00` is literal text. -/
theorem format_fmtLayout (t : Time) :
    t.Format fmtLayout =
      appendZone
        (appendNano
          (appendInt (appendInt (appendInt (appendInt (appendInt (appendInt [] t.year 4 ++ ['_'])
            t.month 2 ++ ['_']) t.day 2 ++ ['T']) t.hour 2 ++ ['_']) t.minute 2 ++ ['_'])
            t.second 2)
          t.nsec (Std.fracSecond9 9 '.'))
        t.offset Std.iso8601ShortTZ ++ ['_', '0', '0'] := by
  simp [Time.Format, fmtLayout, appendFormat, nextStdChunk, chunkAt, appendStd, startsWith]

theorem stamp_append {b : List Char} (hb : ∀ c ∈ b, stampChar c) {l : List Char}
    (hl : ∀ c ∈ l, stampChar c) : ∀ c ∈ b ++ l, stampChar c := by
  intro c hc
  rcases List.mem_append.mp hc with h | h
  · exact hb c h
  · exact hl c h

theorem appendNano_stamp (b : List Char) (n : Nat) (hb : ∀ c ∈ b, stampChar c) :
    ∀ c ∈ appendNano b n (Std.fracSecond9 9 '.'), stampChar c := by
  intro c hc
  have h1 : ∀ c ∈ appendInt (b ++ ['.']) n 9, stampChar c :=
    appendInt_stamp _ _ _ (stamp_append hb (by
      intro c hc
      rw [List.mem_singleton.mp hc]
      exact Or.inr (by simp)))
  simp only [appendNano] at hc
  split at hc
  · exact hb c hc
  · have h3 : ∀ c ∈ List.rdropWhile (fun x => x == '0')
        (List.take ((appendInt (b ++ ['.']) n 9).length - 9 + 9) (appendInt (b ++ ['.']) n 9)),
        stampChar c := by
      intro c hc
      have hsub := List.rdropWhile_prefix (fun x : Char => x == '0')
        (List.take ((appendInt (b ++ ['.']) n 9).length - 9 + 9) (appendInt (b ++ ['.']) n 9))
      exact h1 c (List.mem_of_mem_take (hsub.subset hc))
    split at hc
    · exact h3 c (List.mem_of_mem_dropLast hc)
    · exact h3 c hc

theorem appendZone_stamp (b : List Char) (offset : Int) (hb : ∀ c ∈ b, stampChar c) :
    ∀ c ∈ appendZone b offset Std.iso8601ShortTZ, stampChar c := by
  have hZ : ∀ c ∈ ['Z'], stampChar c := by
    intro c hc
    rw [List.mem_singleton.mp hc]
    exact Or.inr (by simp)
  have hM : ∀ c ∈ ['-'], stampChar c := by
    intro c hc
    rw [List.mem_singleton.mp hc]
    exact Or.inr (by simp)
  have hP : ∀ c ∈ ['+'], stampChar c := by
    intro c hc
    rw [List.mem_singleton.mp hc]
    exact Or.inr (by simp)
  simp only [appendZone]
  split
  · exact stamp_append hb hZ
  · simp only [reduceCtorEq, decide_False, Bool.or_self, Bool.false_eq_true, if_false, if_true,
      or_self]
    apply appendInt_stamp
    split
    · exact stamp_append hb hM
    · exact stamp_append hb hP

/-- Every byte of a formatted timestamp is a digit or one of `_ T . Z + -`. -/
theorem format_stamp (t : Time) : ∀ c ∈ t.Format fmtLayout, stampChar c := by
  have hU : ∀ c ∈ ['_'], stampChar c := by
    intro c hc
    rw [List.mem_singleton.mp hc]
    exact Or.inr (by simp)
  have hT : ∀ c ∈ ['T'], stampChar c := by
    intro c hc
    rw [List.mem_singleton.mp hc]
    exact Or.inr (by simp)
  rw [format_fmtLayout]
  apply stamp_append
  · apply appendZone_stamp
    apply appendNano_stamp
    apply appendInt_stamp
    apply stamp_append _ hU
    apply appendInt_stamp
    apply stamp_append _ hU
    apply appendInt_stamp
    apply stamp_append _ hT
    apply appendInt_stamp
    apply stamp_append _ hU
    apply appendInt_stamp
    apply stamp_append _ hU
    apply appendInt_stamp
    simp
  · intro c hc
    simp only [List.mem_cons, List.mem_singleton, List.not_mem_nil, or_false] at hc
    rcases hc with rfl | rfl | rfl
    · exact Or.inr (by simp)
    · exact Or.inl (by decide)
    · exact Or.inl (by decide)

/-! ## `filepath.Ext` and `strings.TrimSuffix` -/

theorem extLoop_spec (rev : List Char) :
    ∀ acc : List Char, '.' ∉ acc → '/' ∉ acc →
      (extLoop rev acc = [] ∧ ∀ pre suf, rev.reverse ++ acc = pre ++ '.' :: suf → '/' ∈ suf) ∨
      (∃ stem, extLoop rev acc = '.' :: acc ∧ rev.reverse ++ acc = stem ++ '.' :: acc) ∨
      (∃ stem e, extLoop rev acc = '.' :: e ∧ '.' ∉ e ∧ '/' ∉ e ∧
        rev.reverse ++ acc = stem ++ '.' :: e) := by
  induction rev with
  | nil =>
    intro acc hd _
    left
    refine ⟨rfl, ?_⟩
    intro pre suf h
    simp only [List.reverse_nil, List.nil_append] at h
    exact absurd (by rw [h]; simp) hd
  | cons c rest ih =>
    intro acc hd hs
    by_cases hc : c = '/'
    · left
      subst hc
      refine ⟨by simp [extLoop, isPathSeparator], ?_⟩
      intro pre suf h
      simp only [List.reverse_cons, List.append_assoc, List.singleton_append] at h
      rcases List.append_eq_append_iff.mp h with ⟨a, -, h2⟩ | ⟨a, -, h2⟩
      · cases a with
        | nil =>
          simp only [List.nil_append, List.cons.injEq] at h2
          exact absurd h2.1 (by decide)
        | cons x a =>
          simp only [List.cons_append, List.cons.injEq] at h2
          exact absurd (by rw [h2.2]; simp) hd
      · cases a with
        | nil =>
          simp only [List.nil_append, List.cons.injEq] at h2
          exact absurd h2.1 (by decide)
        | cons x a =>
          simp only [List.cons_append, List.cons.injEq] at h2
          rw [h2.2]
          simp
    · by_cases hdot : c = '.'
      · right
        left
        subst hdot
        exact ⟨rest.reverse, by simp [extLoop, isPathSeparator], by simp⟩
      · have hstep : extLoop (c :: rest) acc = extLoop rest (c :: acc) := by
          simp [extLoop, isPathSeparator, hc, hdot]
        have hpath : (c :: rest).reverse ++ acc = rest.reverse ++ (c :: acc) := by simp
        rw [hstep, hpath]
        have hd2 : '.' ∉ c :: acc := by
          simp only [List.mem_cons, not_or]
          exact ⟨fun h => hdot h.symm, hd⟩
        have hs2 : '/' ∉ c :: acc := by
          simp only [List.mem_cons, not_or]
          exact ⟨fun h => hc h.symm, hs⟩
        rcases ih (c :: acc) hd2 hs2 with h | ⟨stem, h1, h2⟩ | h
        · exact Or.inl h
        · exact Or.inr (Or.inr ⟨stem, c :: acc, h1, hd2, hs2, h2⟩)
        · exact Or.inr (Or.inr h)

/-- The result of `filepath.Ext`: the suffix of the path that starts at the last
dot of its last element, or nothing when that element has no dot. -/
theorem filepathExt_spec (path : GoString) :
    ∃ stem, stem ++ filepathExt path = path ∧
      ((filepathExt path = [] ∧ ∀ pre suf, path = pre ++ '.' :: suf → '/' ∈ suf) ∨
        (∃ e, filepathExt path = '.' :: e ∧ '.' ∉ e ∧ '/' ∉ e)) := by
  have h := extLoop_spec path.reverse [] (by simp) (by simp)
  simp only [List.reverse_reverse, List.append_nil] at h
  unfold filepathExt
  rcases h with ⟨h1, h2⟩ | ⟨stem, h1, h2⟩ | ⟨stem, e, h1, h2, h3, h4⟩
  · exact ⟨path, by rw [h1]; simp, Or.inl ⟨h1, h2⟩⟩
  · exact ⟨stem, by rw [h1, ← h2], Or.inr ⟨[], h1, by simp, by simp⟩⟩
  · exact ⟨stem, by rw [h1, ← h4], Or.inr ⟨e, h1, h2, h3⟩⟩

theorem trimSuffix_append (stem ext : GoString) : trimSuffix (stem ++ ext) ext = stem := by
  have h : hasSuffix (stem ++ ext) ext = true := by
    simp [hasSuffix]
  simp [trimSuffix, h]

/-- C7. Default-namer shape: `FormatFunc(path, t)` is `stem ++ "_" ++ ts ++ ext`
where `ext` is `filepath.Ext(path)` (the suffix starting at the last dot of the
last path element, empty when that element has no dot), `stem ++ ext = path`, and
`ts` is the timestamp formatted with `fmtLayout`; `ts` holds no colon and no path
separator (slash, or backslash, byte 92); so the archive name is strictly longer than the
path and different from it. -/
theorem default_namer_shape (path : GoString) (t : Time) :
    ∃ stem : GoString,
      stem ++ filepathExt path = path ∧
      FormatFunc path t = stem ++ ['_'] ++ t.Format fmtLayout ++ filepathExt path ∧
      ((filepathExt path = [] ∧ ∀ pre suf, path = pre ++ '.' :: suf → '/' ∈ suf) ∨
        (∃ e, filepathExt path = '.' :: e ∧ '.' ∉ e ∧ '/' ∉ e)) ∧
      ':' ∉ t.Format fmtLayout ∧ '/' ∉ t.Format fmtLayout ∧ Char.ofNat 92 ∉ t.Format fmtLayout ∧
      path.length < (FormatFunc path t).length ∧
      FormatFunc path t ≠ path := by
  obtain ⟨stem, hstem, hext⟩ := filepathExt_spec path
  have hno : ∀ c : Char, ¬ stampChar c → c ∉ t.Format fmtLayout :=
    fun c hc hmem => hc (format_stamp t c hmem)
  refine ⟨stem, hstem, ?_, hext, hno _ (by simp [stampChar]), hno _ (by simp [stampChar]),
    hno _ (by simp [stampChar]), FormatFunc_length path t, FormatFunc_ne path t⟩
  have htrim : trimSuffix path (filepathExt path) = stem := by
    have := trimSuffix_append stem (filepathExt path)
    rwa [hstem] at this
  simp only [FormatFunc, htrim]
  rfl

/-! ## The calendar: earlier instants have smaller fields -/

theorem daysBeforeYear_step (y1 y2 : Int) (h : y1 < y2) :
    daysBeforeYear y1 + 365 + (if isLeap y1 = true then 1 else 0) ≤ daysBeforeYear y2 := by
  unfold daysBeforeYear
  by_cases hl : isLeap y1 = true
  · rw [if_pos hl]
    simp only [isLeap, Bool.and_eq_true, beq_iff_eq, Bool.or_eq_true, bne_iff_ne, ne_eq] at hl
    omega
  · rw [if_neg hl]
    omega

theorem yday_bounds (t : Time) (hv : t.Valid) :
    1 ≤ t.yday ∧ t.yday ≤ 365 + (if isLeap t.year = true then 1 else 0) := by
  obtain ⟨h1, h2, h3, h4, -⟩ := hv
  unfold Time.yday
  unfold daysIn at h4
  generalize t.month = m at *
  by_cases hl : isLeap t.year = true <;>
    interval_cases m <;> simp [hl, daysBefore] at h4 ⊢ <;> omega

theorem yday_month_lt (t1 t2 : Time) (hv1 : t1.Valid) (hv2 : t2.Valid)
    (hy : t1.year = t2.year) (hm : t1.month < t2.month) : t1.yday < t2.yday := by
  obtain ⟨a1, a2, a3, a4, -⟩ := hv1
  obtain ⟨b1, b2, b3, b4, -⟩ := hv2
  unfold Time.yday
  unfold daysIn at a4 b4
  rw [hy] at a4 ⊢
  generalize t1.month = m1 at *
  generalize t2.month = m2 at *
  by_cases hl : isLeap t2.year = true <;>
    interval_cases m1 <;> interval_cases m2 <;>
    first
    | omega
    | (simp [hl, daysBefore] at a4 b4 ⊢ <;> omega)

/-- In one zone, an instant that is not later has fields that are not larger, in
the order year, month, day, hour, minute, second. -/
theorem fields_of_unix_le (t1 t2 : Time) (hv1 : t1.Valid) (hv2 : t2.Valid)
    (hz : t1.offset = t2.offset) (h : t1.unix ≤ t2.unix) :
    t1.year < t2.year ∨ (t1.year = t2.year ∧
      (t1.month < t2.month ∨ (t1.month = t2.month ∧
        (t1.day < t2.day ∨ (t1.day = t2.day ∧
          (t1.hour < t2.hour ∨ (t1.hour = t2.hour ∧
            (t1.minute < t2.minute ∨ (t1.minute = t2.minute ∧
              (t1.second < t2.second ∨
                (t1.second = t2.second ∧ t1.unix = t2.unix))))))))))) := by
  have hb1 := yday_bounds t1 hv1
  have hb2 := yday_bounds t2 hv2
  obtain ⟨-, -, -, -, a5, a6, a7, -⟩ := id hv1
  obtain ⟨-, -, -, -, b5, b6, b7, -⟩ := id hv2
  have hu1 : t1.unix = (daysBeforeYear t1.year + (t1.yday : Int) - 1) * 86400 + t1.hour * 3600 +
      t1.minute * 60 + t1.second - t1.offset - 62167219200 := rfl
  have hu2 : t2.unix = (daysBeforeYear t2.year + (t2.yday : Int) - 1) * 86400 + t2.hour * 3600 +
      t2.minute * 60 + t2.second - t2.offset - 62167219200 := rfl
  rcases lt_trichotomy t1.year t2.year with hy | hy | hy
  · exact Or.inl hy
  · right
    refine ⟨hy, ?_⟩
    rcases lt_trichotomy t1.month t2.month with hm | hm | hm
    · exact Or.inl hm
    · right
      refine ⟨hm, ?_⟩
      have hd : t1.yday + t2.day = t2.yday + t1.day := by
        unfold Time.yday
        rw [hy, hm]
        omega
      rw [hy] at hu1
      omega
    · have := yday_month_lt t2 t1 hv2 hv1 hy.symm hm
      rw [hy] at hu1
      omega
  · have := daysBeforeYear_step t2.year t1.year hy
    split at hb2 <;> split at this <;> omega

/-! ## Order of formatted timestamps -/

theorem strLess_fixed (w : Nat) : ∀ (n1 n2 : Nat) (x y : GoString), n1 < n2 → n2 < 10 ^ w →
    strLess (fixed w n1 ++ x) (fixed w n2 ++ y) = true := by
  induction w with
  | zero =>
    intro n1 n2 x y h1 h2
    simp at h2
    omega
  | succ w ih =>
    intro n1 n2 x y h1 h2
    simp only [fixed, List.append_assoc, List.singleton_append]
    rw [pow_succ] at h2
    by_cases h : n1 / 10 < n2 / 10
    · exact ih _ _ _ _ h (by omega)
    · have he : n1 / 10 = n2 / 10 := by omega
      rw [he, strLess_append_left]
      exact strLess_cons_lt (digit_lt (by omega)) _ _

theorem fixed_zero_le (w n : Nat) : ∀ c ∈ fixed w n, '0' ≤ c := by
  induction w generalizing n with
  | zero => simp [fixed]
  | succ w ih =>
    intro c hc
    simp only [fixed, List.mem_append, List.mem_singleton] at hc
    rcases hc with hc | hc
    · exact ih _ c hc
    · rw [hc]
      exact digit_zero_le n

theorem fixed_isDigit (w n : Nat) : ∀ c ∈ fixed w n, c.isDigit = true := by
  induction w generalizing n with
  | zero => simp [fixed]
  | succ w ih =>
    intro c hc
    simp only [fixed, List.mem_append, List.mem_singleton] at hc
    rcases hc with hc | hc
    · exact ih _ c hc
    · rw [hc]
      exact digit_isDigit n

theorem fixed_all_zero (w : Nat) : ∀ n : Nat, n < 10 ^ w → (∀ c ∈ fixed w n, c = '0') → n = 0 := by
  induction w with
  | zero =>
    intro n h _
    simp at h
    exact h
  | succ w ih =>
    intro n h hall
    rw [pow_succ] at h
    have h1 : n / 10 = 0 := ih (n / 10) (by omega) (fun c hc => hall c (by simp [fixed, hc]))
    have h2 : n % 10 = 0 := digit_eq_zero (hall (digit n) (by simp [fixed]))
    omega

theorem rdropWhile_cons (p : Char → Bool) (a : Char) (l : List Char) :
    (a :: l).rdropWhile p =
      if l.rdropWhile p = [] then (if p a then [] else [a]) else a :: l.rdropWhile p := by
  induction l using List.reverseRecOn with
  | nil => simp [List.rdropWhile_singleton]
  | append_singleton l x ih =>
    rw [← List.cons_append, List.rdropWhile_concat, List.rdropWhile_concat]
    by_cases hx : p x = true
    · simp only [hx, if_true]
      exact ih
    · simp [hx]

theorem rdropWhile_append_of_ne_nil (p : Char → Bool) (a l : List Char)
    (h : l.rdropWhile p ≠ []) : (a ++ l).rdropWhile p = a ++ l.rdropWhile p := by
  induction a with
  | nil => rfl
  | cons c a ih =>
    rw [List.cons_append, rdropWhile_cons, ih, if_neg (by simp [h])]
    rfl

/-- Digit strings of one length that are in order stay in order when their
trailing zeros are removed and a byte below `0` follows. -/
theorem strLess_trim (x : List Char) : ∀ (y : List Char) (c : Char) (s1 s2 : List Char),
    x.length = y.length → (∀ d ∈ x, '0' ≤ d) → (∀ d ∈ y, '0' ≤ d) → c < '0' →
    strLess x y = true →
    strLess (x.rdropWhile (· == '0') ++ c :: s1) (y.rdropWhile (· == '0') ++ c :: s2) = true := by
  induction x with
  | nil =>
    intro y c s1 s2 hlen _ _ _ hlt
    cases y with
    | nil => simp [strLess] at hlt
    | cons b ys => simp at hlen
  | cons a xs ih =>
    intro y c s1 s2 hlen hx hy hc hlt
    cases y with
    | nil => simp at hlen
    | cons b ys =>
      simp only [List.length_cons, add_left_inj] at hlen
      have ha : '0' ≤ a := hx a (by simp)
      have hb : '0' ≤ b := hy b (by simp)
      have hxs : ∀ d ∈ xs, '0' ≤ d := fun d hd => hx d (by simp [hd])
      have hys : ∀ d ∈ ys, '0' ≤ d := fun d hd => hy d (by simp [hd])
      have hca : c < a := lt_of_lt_of_le hc ha
      have hcb : c < b := lt_of_lt_of_le hc hb
      -- the trimmed left string is empty or starts with `a`
      have hleft : (a :: xs).rdropWhile (· == '0') = [] ∨
          (a :: xs).rdropWhile (· == '0') = a :: xs.rdropWhile (· == '0') := by
        rw [rdropWhile_cons]
        by_cases h1 : xs.rdropWhile (· == '0') = []
        · by_cases h2 : a = '0'
          · left
            simp [h1, h2]
          · right
            simp [h1, h2]
        · right
          simp [h1]
      simp only [strLess] at hlt
      by_cases hab : a < b
      · have hb0 : b ≠ '0' := fun h => absurd (h ▸ hab) (not_lt.mpr ha)
        have hright : (b :: ys).rdropWhile (· == '0') = b :: ys.rdropWhile (· == '0') := by
          rw [rdropWhile_cons]
          by_cases h1 : ys.rdropWhile (· == '0') = [] <;> simp [h1, hb0]
        rw [hright]
        rcases hleft with h | h <;> rw [h]
        · exact strLess_cons_lt hcb _ _
        · exact strLess_cons_lt hab _ _
      · simp only [hab, if_false] at hlt
        by_cases hba : b < a
        · simp [hba] at hlt
        · simp only [hba, if_false] at hlt
          have heq : a = b := le_antisymm (not_lt.mp hba) (not_lt.mp hab)
          subst heq
          have hne : ys.rdropWhile (· == '0') ≠ [] := by
            intro h
            rw [List.rdropWhile_eq_nil_iff] at h
            have hall : ∀ d ∈ ys, d = '0' := fun d hd => by simpa using h d hd
            -- nothing of the same length is below a string of zeros
            have : ∀ (u v : List Char), u.length = v.length → (∀ d ∈ u, '0' ≤ d) →
                (∀ d ∈ v, d = '0') → strLess u v = false := by
              intro u
              induction u with
              | nil =>
                intro v hl _ _
                cases v with
                | nil => rfl
                | cons _ _ => simp at hl
              | cons e u ihu =>
                intro v hl hu hv
                cases v with
                | nil => simp at hl
                | cons f v =>
                  have hf : f = '0' := hv f (by simp)
                  have he : '0' ≤ e := hu e (by simp)
                  subst hf
                  simp only [strLess, not_lt.mpr he, if_false]
                  split
                  · rfl
                  · exact ihu v (by simpa using hl) (fun d hd => hu d (by simp [hd]))
                      (fun d hd => hv d (by simp [hd]))
            rw [this xs ys hlen hxs hall] at hlt
            exact absurd hlt (by simp)
          have hright : (a :: ys).rdropWhile (· == '0') = a :: ys.rdropWhile (· == '0') := by
            rw [rdropWhile_cons]
            simp [hne]
          have hrec := ih ys c s1 s2 hlen hxs hys hc hlt
          rw [hright]
          rcases hleft with h | h
          · rw [h]
            exact strLess_cons_lt hca _ _
          · rw [h]
            simp only [List.cons_append, strLess_cons_same]
            exact hrec


theorem appendNano_eq (b : List Char) (n : Nat) (h : n < 10 ^ 9) :
    appendNano b n (Std.fracSecond9 9 '.') = b ++ fracStr n := by
  by_cases hn : n = 0
  · simp [appendNano, fracStr, hn]
  · have hint : appendInt (b ++ ['.']) (n : Int) 9 = (b ++ ['.']) ++ fixed 9 n :=
      appendInt_fixed _ n 8 h
    have hne : (fixed 9 n).rdropWhile (· == '0') ≠ [] := by
      intro h0
      rw [List.rdropWhile_eq_nil_iff] at h0
      exact hn (fixed_all_zero 9 n h (fun c hc => by simpa using h0 c hc))
    have htrim : ((b ++ ['.']) ++ fixed 9 n).rdropWhile (· == '0') =
        (b ++ ['.']) ++ (fixed 9 n).rdropWhile (· == '0') :=
      rdropWhile_append_of_ne_nil _ _ _ hne
    have hlast : ((b ++ ['.']) ++ (fixed 9 n).rdropWhile (· == '0')).getLast? ≠ some '.' := by
      rw [List.getLast?_append_of_ne_nil _ hne]
      intro hl
      have hmem : '.' ∈ (fixed 9 n).rdropWhile (· == '0') := List.mem_of_getLast?_eq_some hl
      have hsub := List.rdropWhile_prefix (fun c : Char => c == '0') (fixed 9 n)
      have := fixed_isDigit 9 n '.' (hsub.subset hmem)
      exact absurd this (by decide)
    simp only [appendNano, hn, or_false, OfNat.ofNat_ne_zero, if_false, hint]
    have hlen : ((b ++ ['.']) ++ fixed 9 n).length - 9 + 9 = ((b ++ ['.']) ++ fixed 9 n).length := by
      simp only [List.length_append, fixed_length]
      omega
    rw [hlen, List.take_length, htrim, if_neg hlast]
    simp [fracStr, hn]

theorem appendZone_eq (b : List Char) (offset : Int) :
    appendZone b offset Std.iso8601ShortTZ = b ++ zoneStr offset := by
  unfold zoneStr appendZone
  split
  · rfl
  · simp only [reduceCtorEq, decide_False, Bool.or_self, Bool.false_eq_true, if_false, if_true,
      or_self]
    rw [appendInt_append]
    conv_rhs => rw [appendInt_append]
    split <;> simp

/-- A non-zero offset is written with a sign. -/
theorem zoneStr_head (offset : Int) (h : offset ≠ 0) :
    ∃ c rest, zoneStr offset = c :: rest ∧ (c = '+' ∨ c = '-') := by
  unfold zoneStr appendZone
  rw [if_neg h]
  simp only [reduceCtorEq, decide_False, Bool.or_self, Bool.false_eq_true, if_false, if_true,
    or_self]
  rw [appendInt_append]
  split
  · exact ⟨'-', _, rfl, Or.inr rfl⟩
  · exact ⟨'+', _, rfl, Or.inl rfl⟩

theorem daysIn_le (m : Nat) (y : Int) (h1 : 1 ≤ m) (h2 : m ≤ 12) : daysIn m y ≤ 31 := by
  unfold daysIn
  split
  · omega
  · interval_cases m <;> simp [daysBefore]

/-- The formatted timestamp of valid fields with a year of at most four digits. -/
theorem format_valid (t : Time) (hv : t.Valid) (hy0 : 0 ≤ t.year) (hy1 : t.year ≤ 9999) :
    t.Format fmtLayout = dateStr t ++ fracStr t.nsec ++ zoneStr t.offset ++ ['_', '0', '0'] := by
  obtain ⟨h1, h2, h3, h4, h5, h6, h7, h8⟩ := hv
  have hd := daysIn_le t.month t.year h1 h2
  have hyear : t.year = ((t.year.toNat : Nat) : Int) := (Int.toNat_of_nonneg hy0).symm
  rw [format_fmtLayout]
  rw [hyear, appendInt_fixed [] t.year.toNat 3 (by omega),
    appendInt_fixed _ t.month 1 (by omega), appendInt_fixed _ t.day 1 (by omega),
    appendInt_fixed _ t.hour 1 (by omega), appendInt_fixed _ t.minute 1 (by omega),
    appendInt_fixed _ t.second 1 (by omega), appendNano_eq _ _ (by omega), appendZone_eq]
  simp [dateStr]


/-- Timestamps whose date or time of day differ are ordered by their first
nineteen bytes. -/
theorem dateStr_order (t1 t2 : Time) (x y : GoString)
    (hv2 : t2.Valid) (hy0 : 0 ≤ t1.year) (hy1 : t2.year ≤ 9999)
    (hlex : t1.year < t2.year ∨ (t1.year = t2.year ∧
      (t1.month < t2.month ∨ (t1.month = t2.month ∧
        (t1.day < t2.day ∨ (t1.day = t2.day ∧
          (t1.hour < t2.hour ∨ (t1.hour = t2.hour ∧
            (t1.minute < t2.minute ∨ (t1.minute = t2.minute ∧
              t1.second < t2.second)))))))))) :
    strLess (dateStr t1 ++ x) (dateStr t2 ++ y) = true := by
  obtain ⟨h1, h2, h3, h4, h5, h6, h7, h8⟩ := hv2
  have hdi := daysIn_le t2.month t2.year h1 h2
  simp only [dateStr, List.append_assoc, List.singleton_append, List.cons_append,
    List.nil_append]
  rcases hlex with hy | ⟨hy, hm | ⟨hm, hd | ⟨hd, hh | ⟨hh, hmi | ⟨hmi, hs⟩⟩⟩⟩⟩
  · exact strLess_fixed 4 _ _ _ _ (by omega) (by omega)
  · rw [hy, strLess_append_left, strLess_cons_same]
    exact strLess_fixed 2 _ _ _ _ hm (by omega)
  · rw [hy, hm, strLess_append_left, strLess_cons_same, strLess_append_left, strLess_cons_same]
    exact strLess_fixed 2 _ _ _ _ hd (by omega)
  · rw [hy, hm, hd, strLess_append_left, strLess_cons_same, strLess_append_left,
      strLess_cons_same, strLess_append_left, strLess_cons_same]
    exact strLess_fixed 2 _ _ _ _ hh (by omega)
  · rw [hy, hm, hd, hh, strLess_append_left, strLess_cons_same, strLess_append_left,
      strLess_cons_same, strLess_append_left, strLess_cons_same, strLess_append_left,
      strLess_cons_same]
    exact strLess_fixed 2 _ _ _ _ hmi (by omega)
  · rw [hy, hm, hd, hh, hmi, strLess_append_left, strLess_cons_same, strLess_append_left,
      strLess_cons_same, strLess_append_left, strLess_cons_same, strLess_append_left,
      strLess_cons_same, strLess_append_left, strLess_cons_same]
    exact strLess_fixed 2 _ _ _ _ hs (by omega)

/-- Within one second, and with a signed zone, the fraction orders the
timestamps. -/
theorem fracStr_order (n1 n2 : Nat) (offset : Int) (s1 s2 : GoString)
    (hn : n1 < n2) (hn2 : n2 < 10 ^ 9) (hoff : offset ≠ 0) :
    strLess (fracStr n1 ++ (zoneStr offset ++ s1)) (fracStr n2 ++ (zoneStr offset ++ s2)) = true := by
  obtain ⟨c, rest, hz, hc⟩ := zoneStr_head offset hoff
  have hc0 : c < '0' := by rcases hc with rfl | rfl <;> decide
  have hcdot : c < '.' := by rcases hc with rfl | rfl <;> decide
  have h2 : n2 ≠ 0 := by omega
  rw [hz]
  by_cases h1 : n1 = 0
  · simp only [fracStr, h1, h2, if_true, if_false, List.nil_append, List.cons_append]
    exact strLess_cons_lt hcdot _ _
  · simp only [fracStr, h1, h2, if_false, List.cons_append, strLess_cons_same]
    apply strLess_trim _ _ c _ _ (by simp [fixed_length]) (fixed_zero_le 9 n1)
      (fixed_zero_le 9 n2) hc0
    have := strLess_fixed 9 n1 n2 [] [] hn hn2
    simpa using this

/-- Within one second the fraction also orders the timestamps when the fraction
of the earlier one, as printed, is not an initial segment of the other. -/
theorem strLess_trim_apart (x : List Char) : ∀ (y s1 s2 : List Char),
    x.length = y.length → (∀ d ∈ x, '0' ≤ d) → (∀ d ∈ y, '0' ≤ d) →
    strLess x y = true →
    ¬ (x.rdropWhile (· == '0') <+: y.rdropWhile (· == '0')) →
    strLess (x.rdropWhile (· == '0') ++ s1) (y.rdropWhile (· == '0') ++ s2) = true := by
  induction x with
  | nil =>
    intro y s1 s2 hlen _ _ hlt _
    cases y with
    | nil => simp [strLess] at hlt
    | cons b ys => simp at hlen
  | cons a xs ih =>
    intro y s1 s2 hlen hx hy hlt hnp
    cases y with
    | nil => simp at hlen
    | cons b ys =>
      simp only [List.length_cons, add_left_inj] at hlen
      have ha : '0' ≤ a := hx a (by simp)
      have hxs : ∀ d ∈ xs, '0' ≤ d := fun d hd => hx d (by simp [hd])
      have hys : ∀ d ∈ ys, '0' ≤ d := fun d hd => hy d (by simp [hd])
      have hleft : (a :: xs).rdropWhile (· == '0') = a :: xs.rdropWhile (· == '0') := by
        have hne : (a :: xs).rdropWhile (· == '0') ≠ [] := by
          intro h
          rw [h] at hnp
          exact hnp List.nil_prefix
        rw [rdropWhile_cons] at hne ⊢
        by_cases h1 : xs.rdropWhile (· == '0') = []
        · by_cases h2 : a = '0'
          · simp [h1, h2] at hne
          · simp [h1, h2]
        · simp [h1]
      simp only [strLess] at hlt
      by_cases hab : a < b
      · have hb0 : b ≠ '0' := fun h => absurd (h ▸ hab) (not_lt.mpr ha)
        have hright : (b :: ys).rdropWhile (· == '0') = b :: ys.rdropWhile (· == '0') := by
          rw [rdropWhile_cons]
          by_cases h1 : ys.rdropWhile (· == '0') = [] <;> simp [h1, hb0]
        rw [hright, hleft]
        exact strLess_cons_lt hab _ _
      · simp only [hab, if_false] at hlt
        by_cases hba : b < a
        · simp [hba] at hlt
        · simp only [hba, if_false] at hlt
          have heq : a = b := le_antisymm (not_lt.mp hba) (not_lt.mp hab)
          subst heq
          have hright : (a :: ys).rdropWhile (· == '0') = a :: ys.rdropWhile (· == '0') ∨
              (a :: ys).rdropWhile (· == '0') = [] := by
            rw [rdropWhile_cons]
            by_cases h1 : ys.rdropWhile (· == '0') = []
            · by_cases h2 : a = '0'
              · right
                simp [h1, h2]
              · left
                simp [h1, h2]
            · left
              simp [h1]
          rcases hright with hright | hright
          · rw [hleft, hright] at hnp ⊢
            have hnp2 : ¬ (xs.rdropWhile (· == '0') <+: ys.rdropWhile (· == '0')) := by
              intro h
              exact hnp (List.cons_prefix_cons.mpr ⟨rfl, h⟩)
            simp only [List.cons_append, strLess_cons_same]
            exact ih ys s1 s2 hlen hxs hys hlt hnp2
          · -- `a :: ys` is all zeros, so nothing of its length is below it
            exfalso
            rw [List.rdropWhile_eq_nil_iff] at hright
            have hall : ∀ d ∈ ys, d = '0' := fun d hd => by simpa using hright d (by simp [hd])
            have hz : ∀ (u v : List Char), u.length = v.length → (∀ d ∈ u, '0' ≤ d) →
                (∀ d ∈ v, d = '0') → strLess u v = false := by
              intro u
              induction u with
              | nil =>
                intro v hl _ _
                cases v with
                | nil => rfl
                | cons _ _ => simp at hl
              | cons e u ihu =>
                intro v hl hu hv
                cases v with
                | nil => simp at hl
                | cons f v =>
                  have hf : f = '0' := hv f (by simp)
                  have he : '0' ≤ e := hu e (by simp)
                  subst hf
                  simp only [strLess, not_lt.mpr he, if_false]
                  split
                  · rfl
                  · exact ihu v (by simpa using hl) (fun d hd => hu d (by simp [hd]))
                      (fun d hd => hv d (by simp [hd]))
            rw [hz xs ys hlen hxs hall] at hlt
            exact absurd hlt (by simp)

theorem fracStr_lt_Z (n : Nat) : ∀ c ∈ fracStr n, c < 'Z' := by
  intro c hc
  unfold fracStr at hc
  split at hc
  · simp at hc
  · simp only [List.mem_cons] at hc
    rcases hc with rfl | hc
    · decide
    · have hsub := List.rdropWhile_prefix (fun c : Char => c == '0') (fixed 9 n)
      have hmem : c ∈ fixed 9 n := hsub.subset hc
      have hdig : ∀ w m : Nat, ∀ c ∈ fixed w m, c < 'Z' := by
        intro w
        induction w with
        | zero => simp [fixed]
        | succ w ih =>
          intro m c hc
          simp only [fixed, List.mem_append, List.mem_singleton] at hc
          rcases hc with hc | hc
          · exact ih _ c hc
          · rw [hc]
            have := digit_cases m
            simp only [List.mem_cons, List.mem_singleton, List.not_mem_nil, or_false] at this
            rcases this with h | h | h | h | h | h | h | h | h | h <;> rw [h] <;> decide
      exact hdig 9 n c hmem

/-- In UTC, a fraction that is an initial segment of the other is followed by
`Z`, which is above every byte of a fraction: the names are not in order. -/
theorem fracStr_order_utc (n1 n2 : Nat) (s : GoString)
    (h : fracStr n1 <+: fracStr n2) :
    strLess (fracStr n1 ++ (zoneStr 0 ++ s)) (fracStr n2 ++ (zoneStr 0 ++ s)) = false := by
  obtain ⟨r, hr⟩ := h
  rw [← hr, List.append_assoc, strLess_append_left]
  cases r with
  | nil => exact strLess_irrefl _
  | cons c r =>
    have hc : c < 'Z' := fracStr_lt_Z n2 c (by rw [← hr]; simp)
    have hz : zoneStr 0 = ['Z'] := rfl
    rw [hz]
    simp [strLess, hc, not_lt.mpr (le_of_lt hc)]

/-- Within one second, the fraction orders the timestamps when it is not an
initial segment of the other. -/
theorem fracStr_order_apart (n1 n2 : Nat) (s1 s2 : GoString)
    (hn : n1 < n2) (hn2 : n2 < 10 ^ 9) (hnp : ¬ (fracStr n1 <+: fracStr n2)) :
    strLess (fracStr n1 ++ s1) (fracStr n2 ++ s2) = true := by
  have h2 : n2 ≠ 0 := by omega
  have h1 : n1 ≠ 0 := by
    intro h
    apply hnp
    simp only [fracStr, h, if_true]
    exact List.nil_prefix
  simp only [fracStr, h1, h2, if_false] at hnp ⊢
  simp only [List.cons_append, strLess_cons_same]
  apply strLess_trim_apart _ _ _ _ (by simp [fixed_length]) (fixed_zero_le 9 n1)
    (fixed_zero_le 9 n2)
  · have := strLess_fixed 9 n1 n2 [] [] hn hn2
    simpa using this
  · intro h
    exact hnp (List.cons_prefix_cons.mpr ⟨rfl, h⟩)

/-- C6, as amended. Default-namer ordering: for every path and two timestamps
`t1` strictly earlier than `t2`, in the same zone and with years from 0 to 9999,
the archive name of `t1` is strictly smaller in lexical order than that of `t2`
if and only if the zone's offset from UTC is not zero, or the two timestamps lie
in different seconds, or the fraction of `t1` as printed (nothing for zero
nanoseconds, otherwise the dot and the nine digits without trailing zeros) is not
an initial segment of the fraction of `t2` as printed. -/
theorem default_namer_order (path : GoString) (t1 t2 : Time)
    (hv1 : t1.Valid) (hv2 : t2.Valid)
    (hy1 : 0 ≤ t1.year ∧ t1.year ≤ 9999) (hy2 : 0 ≤ t2.year ∧ t2.year ≤ 9999)
    (hzone : t1.offset = t2.offset)
    (hbefore : t1.Before t2 = true) :
    strLess (FormatFunc path t1) (FormatFunc path t2) = true ↔
      (t1.offset ≠ 0 ∨ t1.unix ≠ t2.unix ∨ ¬ (fracStr t1.nsec <+: fracStr t2.nsec)) := by
  have hle : t1.unix ≤ t2.unix := by
    simp only [Time.Before, Bool.or_eq_true, decide_eq_true_eq, Bool.and_eq_true] at hbefore
    rcases hbefore with h | ⟨h, -⟩
    · exact le_of_lt h
    · exact le_of_eq h
  simp only [FormatFunc, List.append_assoc]
  rw [strLess_append_left, strLess_append_left, format_valid t1 hv1 hy1.1 hy1.2,
    format_valid t2 hv2 hy2.1 hy2.2]
  simp only [List.append_assoc]
  have hdate : ∀ hlex, strLess
      (dateStr t1 ++ (fracStr t1.nsec ++ (zoneStr t1.offset ++ (['_', '0', '0'] ++
        filepathExt path))))
      (dateStr t2 ++ (fracStr t2.nsec ++ (zoneStr t2.offset ++ (['_', '0', '0'] ++
        filepathExt path)))) = true :=
    fun hlex => dateStr_order t1 t2 _ _ hv2 hy1.1 hy2.2 hlex
  have hne : ∀ {a b : Int}, a < b → a ≠ b := fun h => ne_of_lt h
  rcases fields_of_unix_le t1 t2 hv1 hv2 hzone hle with
    hy | ⟨hy, hm | ⟨hm, hd | ⟨hd, hh | ⟨hh, hmi | ⟨hmi, hs | ⟨hs, hu⟩⟩⟩⟩⟩⟩
  · have hx := hdate (Or.inl hy)
    refine ⟨fun _ => Or.inr (Or.inl ?_), fun _ => hx⟩
    intro hu
    have := fields_of_unix_le t2 t1 hv2 hv1 hzone.symm (le_of_eq hu.symm)
    omega
  · have hx := hdate (Or.inr ⟨hy, Or.inl hm⟩)
    refine ⟨fun _ => Or.inr (Or.inl ?_), fun _ => hx⟩
    intro hu
    have := fields_of_unix_le t2 t1 hv2 hv1 hzone.symm (le_of_eq hu.symm)
    omega
  · have hx := hdate (Or.inr ⟨hy, Or.inr ⟨hm, Or.inl hd⟩⟩)
    refine ⟨fun _ => Or.inr (Or.inl ?_), fun _ => hx⟩
    intro hu
    have := fields_of_unix_le t2 t1 hv2 hv1 hzone.symm (le_of_eq hu.symm)
    omega
  · have hx := hdate (Or.inr ⟨hy, Or.inr ⟨hm, Or.inr ⟨hd, Or.inl hh⟩⟩⟩)
    refine ⟨fun _ => Or.inr (Or.inl ?_), fun _ => hx⟩
    intro hu
    have := fields_of_unix_le t2 t1 hv2 hv1 hzone.symm (le_of_eq hu.symm)
    omega
  · have hx := hdate (Or.inr ⟨hy, Or.inr ⟨hm, Or.inr ⟨hd, Or.inr ⟨hh, Or.inl hmi⟩⟩⟩⟩)
    refine ⟨fun _ => Or.inr (Or.inl ?_), fun _ => hx⟩
    intro hu
    have := fields_of_unix_le t2 t1 hv2 hv1 hzone.symm (le_of_eq hu.symm)
    omega
  · have hx := hdate (Or.inr ⟨hy, Or.inr ⟨hm, Or.inr ⟨hd, Or.inr ⟨hh, Or.inr ⟨hmi, hs⟩⟩⟩⟩⟩)
    refine ⟨fun _ => Or.inr (Or.inl ?_), fun _ => hx⟩
    intro hu
    have := fields_of_unix_le t2 t1 hv2 hv1 hzone.symm (le_of_eq hu.symm)
    omega
  · -- same second: the fraction decides
    have hn : t1.nsec < t2.nsec := by
      simp only [Time.Before, Bool.or_eq_true, decide_eq_true_eq, Bool.and_eq_true] at hbefore
      rcases hbefore with h | ⟨-, h⟩
      · omega
      · exact h
    have hds : dateStr t1 = dateStr t2 := by
      simp only [dateStr, hy, hm, hd, hh, hmi, hs]
    rw [hds, strLess_append_left, ← hzone]
    constructor
    · intro hlt
      by_contra hcon
      push_neg at hcon
      obtain ⟨hoff, -, hpre⟩ := hcon
      rw [hoff, fracStr_order_utc _ _ _ hpre] at hlt
      exact absurd hlt (by simp)
    · rintro (hoff | hu2 | hnp)
      · exact fracStr_order _ _ _ _ _ hn hv2.2.2.2.2.2.2.2 hoff
      · exact absurd hu hu2
      · exact fracStr_order_apart _ _ _ _ hn hv2.2.2.2.2.2.2.2 hnp

/-! ## The theorems at concrete inputs -/

/-- The example of the specification: threshold 10 and the writes `hello`,
`world!`, `hi`.  The second write meets the hypotheses of C1 and rotates; over the
whole run the archive holds `hello`, the live file `world!hi`, and there is exactly
one rotation. -/
theorem write_rotates_on_crossing_witness :
    (exWriter.file = File.live 0 5 ∧
      (exDisk (bytes "hello") []).entries
        ((exDisk (bytes "hello") []).resolve exWriter.name) = some 0 ∧
      (exDisk (bytes "hello") []).data 0 = bytes "hello" ∧
      exWriter.cnt = ((bytes "hello").length : Int) ∧
      0 < exWriter.cnt ∧ exWriter.cnt + (bytes "world!").length > exWriter.maxSize ∧
      exWriter.cnt + (bytes "world!").length < 2 ^ 63 ∧
      (exDisk (bytes "hello") []).entries ((exDisk (bytes "hello") []).resolve
        (exWriter.fmtFunc exWriter.name
          ((exDisk (bytes "hello") []).clock (exDisk (bytes "hello") []).tick))) ≠ some 0) ∧
    ((exWriter.Write (exDisk (bytes "hello") []) (bytes "world!")).1.read
        "app_2021_03_04T05_06_07Z_00.log".toList = some (bytes "hello") ∧
      (exWriter.Write (exDisk (bytes "hello") []) (bytes "world!")).1.read exPath =
        some (bytes "world!") ∧
      (exWriter.Write (exDisk (bytes "hello") []) (bytes "world!")).2.1.cnt = 6 ∧
      (exWriter.Write (exDisk (bytes "hello") []) (bytes "world!")).2.2 = (6, none)) ∧
    (New (exWorld []) exOpts = ((New (exWorld []) exOpts).1, Except.ok exNew) ∧
      (writes (New (exWorld []) exOpts).1 exNew [bytes "hello"]).2.1.cnt = exWriter.cnt ∧
      (writes (New (exWorld []) exOpts).1 exNew [bytes "hello"]).2.1.file = exWriter.file ∧
      (writes (New (exWorld []) exOpts).1 exNew [bytes "hello"]).1.read exPath =
        some (bytes "hello") ∧
      (writes (New (exWorld []) exOpts).1 exNew
          [bytes "hello", bytes "world!", bytes "hi"]).1.read
        "app_2021_03_04T05_06_07Z_00.log".toList = some (bytes "hello") ∧
      (writes (New (exWorld []) exOpts).1 exNew
          [bytes "hello", bytes "world!", bytes "hi"]).1.read exPath =
        some (bytes "world!hi") ∧
      rotations (writes (New (exWorld []) exOpts).1 exNew
          [bytes "hello", bytes "world!", bytes "hi"]).1.log = 1 ∧
      (writes (New (exWorld []) exOpts).1 exNew
          [bytes "hello", bytes "world!", bytes "hi"]).2.2 =
        [(5, none), (6, none), (2, none)]) :=
  have h := write_rotates_on_crossing (exDisk (bytes "hello") []) exWriter (bytes "world!")
    (bytes "hello") 0 5 rfl rfl rfl rfl (by decide) (by decide) (by decide)
    (fun _ hf => nomatch hf) (by decide)
  ⟨⟨rfl, rfl, rfl, rfl, by decide, by decide, by decide, by decide⟩,
   ⟨h.2.2.1, h.2.2.2.1, h.2.2.2.2.1, h.2.2.2.2.2⟩,
   ⟨rfl, by decide, by decide, by decide, by decide, by decide, by decide, by decide⟩⟩

/-- C1 fails for an archive name that differs from the live path but names the
same file (file 0): with the namer that puts `./` before the path, every file
operation succeeding, the rename does nothing, the reopened file still holds
`helloworld`, and the write of `XY` at offset 0 leaves `XYlloworld` under both
names; the archive does not hold `helloworld` and the live file is not `XY`. -/
theorem aliased_archive_name_breaks_rotation :
    exAliased.file = File.live 0 10 ∧
      (exDisk (bytes "helloworld") []).read exAliased.name = some (bytes "helloworld") ∧
      exAliased.cnt = ((bytes "helloworld").length : Int) ∧
      0 < exAliased.cnt ∧
      exAliased.cnt + (bytes "XY").length > exAliased.maxSize ∧
      (exDisk (bytes "helloworld") []).faults = [] ∧
      exAliased.fmtFunc exAliased.name
        ((exDisk (bytes "helloworld") []).clock (exDisk (bytes "helloworld") []).tick) =
        "./app.log".toList ∧
      exAliased.fmtFunc exAliased.name
        ((exDisk (bytes "helloworld") []).clock (exDisk (bytes "helloworld") []).tick) ≠
        exAliased.name ∧
      (exDisk (bytes "helloworld") []).entries
        ((exDisk (bytes "helloworld") []).resolve "./app.log".toList) = some 0 ∧
      (exAliased.Write (exDisk (bytes "helloworld") []) (bytes "XY")).1.log =
        [⟨Call.sync, none, 0⟩, ⟨Call.close, none, 0⟩,
         ⟨Call.rename exPath "./app.log".toList, none, 0⟩,
         ⟨Call.openFile exPath, none, 0⟩, ⟨Call.write (bytes "XY"), none, 2⟩] ∧
      (exAliased.Write (exDisk (bytes "helloworld") []) (bytes "XY")).2.2 = (2, none) ∧
      (exAliased.Write (exDisk (bytes "helloworld") []) (bytes "XY")).2.1.cnt = 2 ∧
      (exAliased.Write (exDisk (bytes "helloworld") []) (bytes "XY")).1.read
        "./app.log".toList = some (bytes "XYlloworld") ∧
      (exAliased.Write (exDisk (bytes "helloworld") []) (bytes "XY")).1.read exPath =
        some (bytes "XYlloworld") := by
  decide

/-- C2 at `hello`, `hi` under threshold 10. -/
theorem no_rotation_below_threshold_witness :
    ((exWorld []).read exOpts.Name = none ∧
      ∀ k ≤ [bytes "hello", bytes "hi"].length,
        (((([bytes "hello", bytes "hi"].take k).map List.length).sum : Nat) : Int) ≤
          exOpts.MaxSize) ∧
    ∃ w0 r0, New (exWorld []) exOpts = (w0, Except.ok r0) ∧
      (writes w0 r0 [bytes "hello", bytes "hi"]).1.log =
        w0.log ++ [bytes "hello", bytes "hi"].map (fun b => ⟨Call.write b, none, b.length⟩) ∧
      rotations (writes w0 r0 [bytes "hello", bytes "hi"]).1.log = rotations (exWorld []).log ∧
      (writes w0 r0 [bytes "hello", bytes "hi"]).1.read exOpts.Name =
        some [bytes "hello", bytes "hi"].flatten ∧
      (writes w0 r0 [bytes "hello", bytes "hi"]).2.2 =
        [bytes "hello", bytes "hi"].map (fun b => (b.length, none)) ∧
      (writes w0 r0 [bytes "hello", bytes "hi"]).2.1.cnt =
        ((([bytes "hello", bytes "hi"].map List.length).sum : Nat) : Int) :=
  ⟨⟨rfl, by decide⟩,
   no_rotation_below_threshold (exWorld []) exOpts [bytes "hello", bytes "hi"] (Or.inl rfl)
     (fun _ hf => nomatch hf) (by decide)⟩

/-- C3 at a threshold of -1: the one-byte write is accepted without rotation. -/
theorem zero_count_guard_witness :
    (exTiny.cnt = 0 ∧ exTiny.file = File.live 0 0 ∧
      (exDisk [] []).entries ((exDisk [] []).resolve exTiny.name) = some 0 ∧
      (exDisk [] []).data 0 = [] ∧
      exTiny.maxSize < ((bytes "x").length : Int)) ∧
    ((exTiny.Write (exDisk [] []) (bytes "x")).1.log = [⟨Call.write (bytes "x"), none, 1⟩] ∧
      rotations (exTiny.Write (exDisk [] []) (bytes "x")).1.log = 0 ∧
      (exTiny.Write (exDisk [] []) (bytes "x")).1.read exPath = some (bytes "x") ∧
      (exTiny.Write (exDisk [] []) (bytes "x")).2.1.cnt = 1 ∧
      (exTiny.Write (exDisk [] []) (bytes "x")).2.2 = (1, none)) :=
  ⟨⟨rfl, rfl, rfl, rfl, by decide⟩,
   zero_count_guard (exDisk [] []) exTiny (bytes "x") 0 rfl rfl rfl rfl (by decide)
     (fun _ hf => nomatch hf)⟩

/-- C4 as amended, on a file that already holds `hello`: `world!` crosses the
threshold 10, and the default archive name names no file yet. -/
theorem resume_on_existing_file_witness :
    ((exDisk (bytes "hello") []).read exOpts.Name = some (bytes "hello") ∧
      0 < (bytes "hello").length ∧
      (((bytes "hello").length : Nat) : Int) + (bytes "world!").length < 2 ^ 63) ∧
    (∃ w0 r0 i, New (exDisk (bytes "hello") []) exOpts = (w0, Except.ok r0) ∧
      (exDisk (bytes "hello") []).entries ((exDisk (bytes "hello") []).resolve exOpts.Name) =
        some i ∧
      w0.SameDisk (exDisk (bytes "hello") []) ∧
      r0.cnt = ((bytes "hello").length : Nat) ∧
      r0.file = File.live i (bytes "hello").length ∧
      (rotations (r0.Write w0 (bytes "world!")).1.log = rotations w0.log + 1 ↔
        (((bytes "hello").length : Nat) : Int) + (bytes "world!").length > exOpts.MaxSize) ∧
      (¬ ((((bytes "hello").length : Nat) : Int) + (bytes "world!").length > exOpts.MaxSize) →
        rotations (r0.Write w0 (bytes "world!")).1.log = rotations w0.log ∧
        (r0.Write w0 (bytes "world!")).1.read exOpts.Name =
          some (bytes "hello" ++ bytes "world!")) ∧
      ((((bytes "hello").length : Nat) : Int) + (bytes "world!").length > exOpts.MaxSize →
        (exDisk (bytes "hello") []).entries ((exDisk (bytes "hello") []).resolve
            (r0.fmtFunc exOpts.Name (w0.clock w0.tick))) ≠
          (exDisk (bytes "hello") []).entries
            ((exDisk (bytes "hello") []).resolve exOpts.Name) →
        (r0.Write w0 (bytes "world!")).1.read (r0.fmtFunc exOpts.Name (w0.clock w0.tick)) =
          some (bytes "hello") ∧
        (r0.Write w0 (bytes "world!")).1.read exOpts.Name = some (bytes "world!"))) ∧
    (New (exDisk (bytes "hello") []) exOpts =
        ((New (exDisk (bytes "hello") []) exOpts).1, Except.ok exWriter) ∧
      rotations (exWriter.Write (New (exDisk (bytes "hello") []) exOpts).1
        (bytes "world!")).1.log = 1 ∧
      (exWriter.Write (New (exDisk (bytes "hello") []) exOpts).1 (bytes "world!")).1.read
        "app_2021_03_04T05_06_07Z_00.log".toList = some (bytes "hello") ∧
      (exWriter.Write (New (exDisk (bytes "hello") []) exOpts).1 (bytes "world!")).1.read
        exPath = some (bytes "world!")) :=
  ⟨⟨rfl, by decide, by decide⟩,
   resume_on_existing_file (exDisk (bytes "hello") []) exOpts (bytes "hello") (bytes "world!")
     rfl (by decide) (by decide) (fun _ hf => nomatch hf),
   ⟨rfl, by decide, by decide, by decide⟩⟩

/-- C4 fails when the archive name names the live file.  With the namer that
returns the path, `New` on a file holding `helloworld` with threshold 10 gives a
writer with counter 10; the first write, `XY`, rotates (every file operation
succeeds), the rename of the path to itself does nothing, the file is reopened
without truncation, and `XY` is written at offset 0: the file holds `XYlloworld`,
so the archive does not hold `helloworld` and the live file is not `XY`.  The
same happens with the namer that puts `./` before the path, whose name differs
from the path. -/
theorem same_archive_name_breaks_resume :
    ((exDisk (bytes "helloworld") []).read exSameOpts.Name = some (bytes "helloworld") ∧
      (exDisk (bytes "helloworld") []).faults = [] ∧
      New (exDisk (bytes "helloworld") []) exSameOpts =
        ((New (exDisk (bytes "helloworld") []) exSameOpts).1, Except.ok exResumed) ∧
      exResumed.cnt = 10 ∧ exResumed.file = File.live 0 10 ∧
      exResumed.cnt + ((bytes "XY").length : Int) > exSameOpts.MaxSize ∧
      (exResumed.Write (New (exDisk (bytes "helloworld") []) exSameOpts).1
        (bytes "XY")).1.log.drop 3 =
        [⟨Call.sync, none, 0⟩, ⟨Call.close, none, 0⟩, ⟨Call.rename exPath exPath, none, 0⟩,
         ⟨Call.openFile exPath, none, 0⟩, ⟨Call.write (bytes "XY"), none, 2⟩] ∧
      rotations (exResumed.Write (New (exDisk (bytes "helloworld") []) exSameOpts).1
        (bytes "XY")).1.log = 1 ∧
      (exResumed.Write (New (exDisk (bytes "helloworld") []) exSameOpts).1
        (bytes "XY")).2.2 = (2, none) ∧
      (exResumed.Write (New (exDisk (bytes "helloworld") []) exSameOpts).1
        (bytes "XY")).1.read exPath = some (bytes "XYlloworld")) ∧
    (New (exDisk (bytes "helloworld") []) exDotOpts =
        ((New (exDisk (bytes "helloworld") []) exDotOpts).1, Except.ok exAliased) ∧
      rotations (exAliased.Write (New (exDisk (bytes "helloworld") []) exDotOpts).1
        (bytes "XY")).1.log = 1 ∧
      (exAliased.Write (New (exDisk (bytes "helloworld") []) exDotOpts).1
        (bytes "XY")).2.2 = (2, none) ∧
      (exAliased.Write (New (exDisk (bytes "helloworld") []) exDotOpts).1
        (bytes "XY")).1.read "./app.log".toList = some (bytes "XYlloworld") ∧
      (exAliased.Write (New (exDisk (bytes "helloworld") []) exDotOpts).1
        (bytes "XY")).1.read exPath = some (bytes "XYlloworld")) :=
  ⟨⟨rfl, rfl, rfl, rfl, rfl, by decide, by decide, by decide, by decide, by decide⟩,
   ⟨rfl, by decide, by decide, by decide, by decide⟩⟩

/-- C5 when the rename fails: sync and close were called and succeeded, the
rename failed, nothing was called after it, and `Write` returned its error. -/
theorem failed_rotation_aborts_write_witness :
    ((exWriter.cnt > 0 ∧ exWriter.cnt + (bytes "world!").length > exWriter.maxSize) ∧
      (exWriter.rotate (exDisk (bytes "hello") [Fault.ok, Fault.ok, Fault.fail 18 0])).2.2 =
        some (Error.sys 18)) ∧
    (exWriter.Write (exDisk (bytes "hello") [Fault.ok, Fault.ok, Fault.fail 18 0])
      (bytes "world!")).2.2 = (0, some (Error.sys 18)) ∧
    (exWriter.Write (exDisk (bytes "hello") [Fault.ok, Fault.ok, Fault.fail 18 0])
      (bytes "world!")).1.log =
      [⟨Call.sync, none, 0⟩, ⟨Call.close, none, 0⟩,
       ⟨Call.rename exPath "app_2021_03_04T05_06_07Z_00.log".toList, some (Error.sys 18), 0⟩] ∧
    (exWriter.Write (exDisk (bytes "hello") [Fault.ok, Fault.ok, Fault.fail 18 0])
      (bytes "world!")).1.read exPath = some (bytes "hello") ∧
    (∀ p c,
      (exWriter.Write (exDisk (bytes "hello") [Fault.ok, Fault.ok, Fault.fail 18 0])
        (bytes "world!")).1.read p = some c →
      ∃ q, (exDisk (bytes "hello") [Fault.ok, Fault.ok, Fault.fail 18 0]).read q = some c) :=
  have h := failed_rotation_aborts_write
    (exDisk (bytes "hello") [Fault.ok, Fault.ok, Fault.fail 18 0]) exWriter
    (bytes "world!") (Error.sys 18) (by decide) (by decide)
  ⟨⟨by decide, by decide⟩, h.1, by decide, by decide, h.2.2.2⟩

/-- C6 as amended, at two instants half a second apart in a zone five and a half
hours east of UTC. -/
theorem default_namer_order_witness :
    ((exEarly 19800).Valid ∧ (exLate 19800).Valid ∧
      (exEarly 19800).offset = (exLate 19800).offset ∧
      (exEarly 19800).Before (exLate 19800) = true ∧ (exEarly 19800).offset ≠ 0) ∧
    FormatFunc exPath (exEarly 19800) = "app_2021_03_04T05_06_07+05_00.log".toList ∧
    FormatFunc exPath (exLate 19800) = "app_2021_03_04T05_06_07.5+05_00.log".toList ∧
    strLess (FormatFunc exPath (exEarly 19800)) (FormatFunc exPath (exLate 19800)) = true :=
  ⟨⟨by decide, by decide, rfl, by decide, by decide⟩, by decide, by decide,
   (default_namer_order exPath (exEarly 19800) (exLate 19800) (by decide) (by decide)
     (by decide) (by decide) rfl (by decide)).mpr (Or.inl (by decide))⟩

/-- C6 fails in UTC: of two instants of one second, the earlier one, which has
no fraction, gets the larger name, because `Z` sorts after the dot. -/
theorem default_namer_order_fails_in_utc :
    (exEarly 0).Valid ∧ (exLate 0).Valid ∧ (exEarly 0).offset = (exLate 0).offset ∧
      (exEarly 0).Before (exLate 0) = true ∧
      FormatFunc exPath (exEarly 0) = "app_2021_03_04T05_06_07Z_00.log".toList ∧
      FormatFunc exPath (exLate 0) = "app_2021_03_04T05_06_07.5Z_00.log".toList ∧
      strLess (FormatFunc exPath (exEarly 0)) (FormatFunc exPath (exLate 0)) = false ∧
      strLess (FormatFunc exPath (exLate 0)) (FormatFunc exPath (exEarly 0)) = true := by
  decide

/-- C9 fails after a write that fails part way: `New` on an empty disk, then
`Write("ab")` whose underlying write puts one byte and fails.  The handle is open
at offset 1 and the file holds one byte, but the counter is 0. -/
theorem counter_misses_bytes_of_failed_write :
    New (exWorld [Fault.ok, Fault.ok, Fault.ok, Fault.fail 5 1]) exOpts =
        ((New (exWorld [Fault.ok, Fault.ok, Fault.ok, Fault.fail 5 1]) exOpts).1,
          Except.ok exNew) ∧
      (writes (New (exWorld [Fault.ok, Fault.ok, Fault.ok, Fault.fail 5 1]) exOpts).1 exNew
        [bytes "ab"]).2.2 = [(1, some (Error.sys 5))] ∧
      (writes (New (exWorld [Fault.ok, Fault.ok, Fault.ok, Fault.fail 5 1]) exOpts).1 exNew
        [bytes "ab"]).2.1.file = File.live 0 1 ∧
      (writes (New (exWorld [Fault.ok, Fault.ok, Fault.ok, Fault.fail 5 1]) exOpts).1 exNew
        [bytes "ab"]).1.read exPath = some (bytes "a") ∧
      handleBytes (writes (New (exWorld [Fault.ok, Fault.ok, Fault.ok, Fault.fail 5 1])
        exOpts).1 exNew [bytes "ab"]).1.log = 1 ∧
      (writes (New (exWorld [Fault.ok, Fault.ok, Fault.ok, Fault.fail 5 1]) exOpts).1 exNew
        [bytes "ab"]).2.1.cnt = 0 :=
  ⟨rfl, by decide, by decide, by decide, by decide, by decide⟩

/-- C9 as amended, on a run whose second `Write` fails in its rotation (the sync
fails): the handle stays open and the counter still equals the bytes in it. -/
theorem counter_counts_handle_bytes_witness :
    (New (exWorld [Fault.ok, Fault.ok, Fault.ok, Fault.ok, Fault.fail 9 0]) exOpts =
        ((New (exWorld [Fault.ok, Fault.ok, Fault.ok, Fault.ok, Fault.fail 9 0]) exOpts).1,
          Except.ok exNew) ∧
      (writes (New (exWorld [Fault.ok, Fault.ok, Fault.ok, Fault.ok, Fault.fail 9 0])
          exOpts).1 exNew [bytes "hello", bytes "world!"]).2.2 =
        [(5, none), (0, some (Error.sys 9))] ∧
      (writes (New (exWorld [Fault.ok, Fault.ok, Fault.ok, Fault.ok, Fault.fail 9 0])
          exOpts).1 exNew [bytes "hello", bytes "world!"]).2.1.file = File.live 0 5) ∧
    ((writes (New (exWorld [Fault.ok, Fault.ok, Fault.ok, Fault.ok, Fault.fail 9 0])
          exOpts).1 exNew [bytes "hello", bytes "world!"]).2.1.cnt = 5 ∧
      (writes (New (exWorld [Fault.ok, Fault.ok, Fault.ok, Fault.ok, Fault.fail 9 0])
          exOpts).1 exNew [bytes "hello", bytes "world!"]).2.1.cnt =
        handleBytes (writes (New (exWorld [Fault.ok, Fault.ok, Fault.ok, Fault.ok,
          Fault.fail 9 0]) exOpts).1 exNew [bytes "hello", bytes "world!"]).1.log) :=
  ⟨⟨rfl, by decide, by decide⟩,
   counter_counts_handle_bytes
     (exWorld [Fault.ok, Fault.ok, Fault.ok, Fault.ok, Fault.fail 9 0])
     (New (exWorld [Fault.ok, Fault.ok, Fault.ok, Fault.ok, Fault.fail 9 0]) exOpts).1
     exOpts exNew [bytes "hello", bytes "world!"] 0 5 rfl (by decide) (by decide)⟩

/-- C10 on the example of the specification: after `hello`, the write of
`world!` succeeds in full and leaves the counter at 6. -/
theorem live_file_size_bound_witness :
    (New (exWorld []) exOpts = ((New (exWorld []) exOpts).1, Except.ok exNew) ∧
      ((writes (New (exWorld []) exOpts).1 exNew [bytes "hello"]).2.1.Write
        (writes (New (exWorld []) exOpts).1 exNew [bytes "hello"]).1 (bytes "world!")).2.2 =
        ((bytes "world!").length, none)) ∧
    (((writes (New (exWorld []) exOpts).1 exNew [bytes "hello"]).2.1.Write
        (writes (New (exWorld []) exOpts).1 exNew [bytes "hello"]).1 (bytes "world!")).2.1.cnt ≤
        exOpts.MaxSize ∨
      ((writes (New (exWorld []) exOpts).1 exNew [bytes "hello"]).2.1.Write
        (writes (New (exWorld []) exOpts).1 exNew [bytes "hello"]).1 (bytes "world!")).2.1.cnt =
        ((bytes "world!").length : Int)) :=
  ⟨⟨rfl, by decide⟩,
   live_file_size_bound (exWorld []) (New (exWorld []) exOpts).1 exOpts exNew [bytes "hello"]
     (bytes "world!") rfl (by decide)⟩

end GoRotate
